import Mathlib

/-!
Verification of the FundVal-Live strategy engine
(`backend/app/services/strategy.py`) against its specification.

The Python source is shallowly embedded:

* float arithmetic is modelled by exact rationals (`ℚ`); Python's
  `round(x, d)` (round-half-to-even) is modelled by `roundTo` below;
* asset codes are treated as atoms: the source uses strings ordered
  lexicographically, the embedding uses an arbitrary linearly ordered
  type `Code` (instantiated at `ℕ` in concrete computations); the
  weight-normalization embedding keeps `String` codes, with
  `normalize_asset_code` (a regex on strings, from `fund.py`) abstracted
  as a parameter `normCode`;
* fallible code returns `Except SErr`; raised `ValueError`s become
  error values of the inductive `SErr`;
* database rows become Lean structures; each persistence-touching
  operation is a pure state transformer wrapped in `run_txn`, which
  models the source's single-connection `try/commit/except/rollback`
  blocks: a `fault` flag models an injected failure of any write or of
  the final commit, after which the connection is rolled back.
-/

set_option maxRecDepth 2000

namespace FundVal

/-- Error taxonomy: one constructor per distinct `raise` site that the
embedded operations can reach, plus `ioFault` for an injected
persistence failure. -/
inductive SErr where
  | invalidWeight
  | missingCode
  | emptyHoldings
  | nonPositiveTotal
  | noActiveVersion
  | noSymbols
  | noPrices
  | nonPositiveTotalValue
  | nonPositiveTargetTotal
  | batchNotFound
  | batchCompleted
  | batchEdited
  | orderNotFound
  | onlyBuySell
  | positionNotFound
  | sharesExceeded
  | invalidResultingShares
  | pendingRemain
  | invalidShares
  | invalidPrice
  | invalidCapital
  | emptyNav
  | ioFault
deriving DecidableEq

/-- Python's `round` ties-to-even, at integer precision: the fractional
part decides, a tie goes to the even neighbour. -/
def roundHalfEven (x : ℚ) : ℤ :=
  let f := ⌊x⌋
  let r := x - f
  if r < 1/2 then f
  else if 1/2 < r then f + 1
  else if f % 2 = 0 then f else f + 1

/-- Python's `round(x, d)`. -/
def roundTo (d : ℕ) (x : ℚ) : ℚ :=
  (roundHalfEven (x * 10 ^ d) : ℚ) / 10 ^ d

/-! ## Weight parsing and holdings normalization
(`_parse_weight`, `_normalize_holdings`, strategy.py lines 34-61). -/

/-- Model of `_parse_weight` (strategy.py 34-42): rejects `w ≤ 0`; a value `> 1`
is divided by 100; the result must land in `(0, 1]`. -/
def parse_weight (value : ℚ) : Except SErr ℚ :=
  if value ≤ 0 then .error .invalidWeight
  else
    let w := if value > 1 then value / 100 else value
    if w ≤ 0 ∨ w > 1 then .error .invalidWeight else .ok w

/-- Python-dict accumulation used by `_normalize_holdings`: adding a
weight for a code merges with an existing entry (first-occurrence
position is kept, as in a Python dict). -/
def addWeight : List (String × ℚ) → String → ℚ → List (String × ℚ)
  | [], c, w => [(c, w)]
  | (c', w') :: t, c, w =>
      if c' = c then (c', w' + w) :: t else (c', w') :: addWeight t c w

/-- The merging pass of `_normalize_holdings` (lines 49-55): normalize
each code, reject empty codes, parse each weight, merge duplicates by
summation. -/
def mergeHoldings (normCode : String → String) :
    List (String × ℚ) → List (String × ℚ) → Except SErr (List (String × ℚ))
  | [], acc => .ok acc
  | (c, w) :: t, acc =>
      let code := normCode c
      if code = "" then .error .missingCode
      else
        match parse_weight w with
        | .error e => .error e
        | .ok pw => mergeHoldings normCode t (addWeight acc code pw)

/-- Model of `_normalize_holdings` (strategy.py 45-61).  `normCode` abstracts
`normalize_asset_code(str(...).strip())` from `fund.py`. -/
def normalize_holdings (normCode : String → String) (holdings : List (String × ℚ)) :
    Except SErr (List (String × ℚ)) :=
  if holdings = [] then .error .emptyHoldings
  else
    match mergeHoldings normCode holdings [] with
    | .error e => .error e
    | .ok merged =>
        let total := (merged.map Prod.snd).sum
        if total ≤ 0 then .error .nonPositiveTotal
        else .ok (merged.map fun p => (p.1, p.2 / total))

/-- Sum of the parsed weights that a given (already normalized) code
contributes to an association list: the specification-side measure of
"duplicate codes merged by summation". -/
def valueSum (l : List (String × ℚ)) (c : String) : ℚ :=
  ((l.filter fun p => p.1 = c).map Prod.snd).sum

/-- The per-entry parse of a holdings list, without merging: the list
of `(normalized code, parsed weight)` pairs, or `none` when some entry
is rejected.  Used to state what `_normalize_holdings` merges. -/
def parsedHoldings (normCode : String → String) :
    List (String × ℚ) → Option (List (String × ℚ))
  | [] => some []
  | (c, w) :: t =>
      if normCode c = "" then none
      else
        match parse_weight w with
        | .error _ => none
        | .ok pw => (parsedHoldings normCode t).map fun r => (normCode c, pw) :: r

/-! ## Rebalance order generator
(`generate_rebalance_orders`, strategy.py 710-920). -/

inductive Action where
  | hold
  | buy
  | sell
deriving DecidableEq

variable {Code : Type}

/-- Sorted insert without duplicates; `sortedDedup` models Python's
`sorted(set(...))`. -/
def sortedInsert [LinearOrder Code] (c : Code) : List Code → List Code
  | [] => [c]
  | d :: ds =>
      if c < d then c :: d :: ds
      else if c = d then d :: ds
      else d :: sortedInsert c ds

/-- Python's `sorted(set(l))`. -/
def sortedDedup [LinearOrder Code] (l : List Code) : List Code :=
  l.foldr sortedInsert []

/-- Last-occurrence-wins lookup with default: Python's
`{k: v for ...}.get(key, dflt)` built from an association list. -/
def dictGet [DecidableEq Code] : List (Code × ℚ) → Code → ℚ → ℚ
  | [], _, d => d
  | (k, v) :: t, c, d => dictGet t c (if k = c then v else d)

/-- Inputs of `generate_rebalance_orders` after the portfolio detail,
position and price lookups: `holdings` is `active_holdings`,
`shares_of` the account position map (0 when absent), `price_of` the
price provider (`None` when the asset has no resolvable price). -/
structure GenInput (Code : Type) where
  hasActiveVersion : Bool
  holdings : List (Code × ℚ)
  scope_codes : List Code
  shares_of : Code → ℚ
  price_of : Code → Option ℚ
  min_deviation : ℚ
  lot_size : ℤ
  capital_adjustment : ℚ
  fee_rate : ℚ

/-- One produced order (the per-asset dict appended at lines 812-829;
numeric fields carry the source's `round(..., d)`). -/
structure Order (Code : Type) where
  fund_code : Code
  action : Action
  target_weight : ℚ
  current_weight : ℚ
  deviation : ℚ
  target_shares : ℚ
  current_shares : ℚ
  delta_shares : ℚ
  raw_delta_shares : ℚ
  delta_value : ℚ
  price : ℚ
  trade_amount : ℚ
  fee : ℚ
deriving DecidableEq

/-- Model of `price_map.get(code)`: only assets with a resolvable price `> 0`
are priced (lines 739-744). -/
def priced (inp : GenInput Code) (c : Code) : Option ℚ :=
  match inp.price_of c with
  | none => none
  | some p => if p ≤ 0 then none else some p

/-- Model of `all_codes` (line 729): scope ∪ target codes, sorted, deduplicated. -/
def allCodes [LinearOrder Code] (inp : GenInput Code) : List Code :=
  if inp.scope_codes = [] then sortedDedup (inp.holdings.map Prod.fst)
  else sortedDedup (inp.scope_codes ++ inp.holdings.map Prod.fst)

/-- Model of `force_reallocate` (line 755): `abs(capital_adjustment) > 1e-8`. -/
def forceReallocate (inp : GenInput Code) : Bool :=
  |inp.capital_adjustment| > 1/100000000

/-- Model of `applied_lot_size` (line 754). -/
def appliedLot (inp : GenInput Code) : ℤ :=
  max 1 inp.lot_size

/-- The trade decision (lines 781-787): forced reallocation trades on
`|raw| ≥ 0.01` alone, otherwise both `|deviation| ≥ min_deviation` and
`|raw| ≥ 0.01` are required. -/
def tradeDecision (force : Bool) (raw_delta dev min_dev : ℚ) : Action :=
  if force = true ∧ |raw_delta| ≥ 1/100 then
    (if raw_delta > 0 then .buy else .sell)
  else if |dev| ≥ min_dev ∧ |raw_delta| ≥ 1/100 then
    (if raw_delta > 0 then .buy else .sell)
  else .hold

/-- Lot discretization (lines 789-798): for a non-hold action and
`applied_lot > 1`, the delta becomes `±(⌊|raw|/lot⌋·lot)`; zero whole
lots reverts the action to hold with delta 0. -/
def lotAdjust (applied_lot : ℤ) (a : Action) (raw : ℚ) : Action × ℚ :=
  if a ≠ .hold ∧ 1 < applied_lot then
    let lots : ℤ := ⌊|raw| / (applied_lot : ℚ)⌋
    if lots ≤ 0 then (.hold, 0)
    else (a, if raw < 0 then -((lots * applied_lot : ℤ) : ℚ) else ((lots * applied_lot : ℤ) : ℚ))
  else (a, raw)

/-- The per-asset body of the generator loop (lines 765-829), producing
`none` exactly when the asset has no usable price. -/
def buildOrder [DecidableEq Code] (inp : GenInput Code)
    (total_value target_total : ℚ) (c : Code) : Option (Order Code) :=
  match priced inp c with
  | none => none
  | some price =>
      let c_shares := inp.shares_of c
      let c_value := c_shares * price
      let c_weight := if total_value > 0 then c_value / total_value else 0
      let t_weight := dictGet inp.holdings c 0
      let t_value := target_total * t_weight
      let t_shares := if price > 0 then t_value / price else 0
      let raw := t_shares - c_shares
      let dev := c_weight - t_weight
      let a0 := tradeDecision (forceReallocate inp) raw dev inp.min_deviation
      let ad := lotAdjust (appliedLot inp) a0 raw
      let delta_value := ad.2 * price
      let trade_amount := if ad.1 ≠ Action.hold then |ad.2| * price else 0
      let fee := if ad.1 ≠ Action.hold then trade_amount * inp.fee_rate else 0
      some
        { fund_code := c
          action := ad.1
          target_weight := roundTo 6 t_weight
          current_weight := roundTo 6 c_weight
          deviation := roundTo 6 dev
          target_shares := roundTo 4 t_shares
          current_shares := roundTo 4 c_shares
          delta_shares := roundTo 4 ad.2
          raw_delta_shares := roundTo 4 raw
          delta_value := roundTo 2 delta_value
          price := roundTo 4 price
          trade_amount := roundTo 2 trade_amount
          fee := roundTo 2 fee }

/-- Stable insertion of `x` into a list already sorted by `key`
descending: `x` goes before the first element whose key is not larger,
so elements with equal keys keep their original relative order. -/
def insertByKeyDesc {α : Type} (key : α → ℚ) (x : α) : List α → List α
  | [] => [x]
  | y :: ys =>
      if key x < key y then y :: insertByKeyDesc key x ys else x :: y :: ys

/-- Stable descending sort by `key`: models Python's
`list.sort(key=..., reverse=True)` (CPython's sort is stable, and
`reverse=True` preserves the original order of equal keys). -/
def sortByKeyDesc {α : Type} (key : α → ℚ) : List α → List α
  | [] => []
  | x :: xs => insertByKeyDesc key x (sortByKeyDesc key xs)

/-- Result of the generator: the sorted order list plus the summary
fields the other operations consume. -/
structure GenResult (Code : Type) where
  orders : List (Order Code)
  actionable_count : ℕ
  total_value : ℚ
  target_total : ℚ
deriving DecidableEq

/-- Model of `total_value` (line 749): Σ shares·price over all codes, price 0
when unpriced. -/
def genTotalValue [LinearOrder Code] (inp : GenInput Code) : ℚ :=
  ((allCodes inp).map fun c => inp.shares_of c * (priced inp c).getD 0).sum

/-- The order list in loop (= ascending code) order, before sorting. -/
def genOrdersRaw [LinearOrder Code] (inp : GenInput Code) : List (Order Code) :=
  (allCodes inp).filterMap
    (buildOrder inp (genTotalValue inp) (genTotalValue inp + inp.capital_adjustment))

/-- The order list after the final
`orders.sort(key=lambda x: abs(x["delta_shares"]), reverse=True)`
(line 831). -/
def genOrdersSorted [LinearOrder Code] (inp : GenInput Code) : List (Order Code) :=
  sortByKeyDesc (fun o => |o.delta_shares|) (genOrdersRaw inp)

/-- Model of `generate_rebalance_orders` (strategy.py 710-831), up to but not
including persistence: validations, per-asset order construction, and
the final sort by `abs(delta_shares)` descending. -/
def generate_rebalance_orders [LinearOrder Code] (inp : GenInput Code) :
    Except SErr (GenResult Code) :=
  if inp.hasActiveVersion = false then .error .noActiveVersion
  else if allCodes inp = [] then .error .noSymbols
  else if (allCodes inp).all fun c => priced inp c = none then .error .noPrices
  else if genTotalValue inp ≤ 0 then .error .nonPositiveTotalValue
  else if genTotalValue inp + inp.capital_adjustment ≤ 0 then .error .nonPositiveTargetTotal
  else
    .ok
      { orders := genOrdersSorted inp
        actionable_count := ((genOrdersSorted inp).filter fun o => o.action ≠ Action.hold).length
        total_value := genTotalValue inp
        target_total := genTotalValue inp + inp.capital_adjustment }

/-! ## Backtest simulator (`run_backtest`, strategy.py 1840-2147).

The embedding starts after the NAV matrix has been built: `navRows`
holds, per trading day in ascending order, the per-asset price (the
source's `float(prices.get(c, 0.0) or 0.0)`, so `0` encodes a missing
price).  `weights_of` is the renormalized target weight map (lines
1922-1924), `lot_of` the inferred lot size map (`_infer_lot_size`).
The per-day trade log is bookkeeping with no effect on the simulated
state and is not modelled. -/

inductive RebMode where
  | none
  | threshold
  | periodic
  | hybrid
deriving DecidableEq

structure BtInput (Code : Type) where
  usable_codes : List Code
  weights_of : Code → ℚ
  lot_of : Code → ℤ
  navRows : List (Code → ℚ)
  initial_capital : ℚ
  mode : RebMode
  threshold : ℚ
  periodic_days : ℤ
  fee_rate : ℚ

/-- The mutable simulation state of the day loop (lines 1928-1942). -/
structure SimState (Code : Type) where
  shares_of : Code → ℚ
  cash : ℚ
  last_rebalance_idx : ℤ
  rebalance_count : ℕ
  total_fee : ℚ
  turnover : ℚ

/-- One planned leg of a rebalance (the tuples pushed to
`sell_orders` / `buy_orders` at lines 1980-2004). -/
structure BtOrder (Code : Type) where
  code : Code
  exec_shares : ℚ
  px : ℚ
  amount : ℚ

/-- Point update of a share map. -/
def updF [DecidableEq Code] (f : Code → ℚ) (c : Code) (v : ℚ) : Code → ℚ :=
  fun d => if d = c then v else f d

/-- A sell leg (lines 2012-2036): capped at the shares actually held;
proceeds minus fee are credited to cash. -/
def execSell [DecidableEq Code] (fee_rate : ℚ) (st : SimState Code) (o : BtOrder Code) :
    SimState Code :=
  let available := st.shares_of o.code
  let sell_shares := min |o.exec_shares| available
  if sell_shares ≤ 0 then st
  else
    let sell_amount := sell_shares * o.px
    let fee := sell_amount * fee_rate
    { st with
        shares_of := updF st.shares_of o.code (max 0 (available - sell_shares))
        cash := st.cash + sell_amount - fee
        total_fee := st.total_fee + fee
        turnover := st.turnover + sell_amount }

/-- A buy leg (lines 2038-2072): capped by the cash affordable after
reserving the fee, lot-discretized, then re-checked against cash. -/
def execBuy [DecidableEq Code] (fee_rate : ℚ) (lot_of : Code → ℤ)
    (st : SimState Code) (o : BtOrder Code) : SimState Code :=
  let plan_amount := |o.exec_shares| * o.px
  let max_affordable := if fee_rate ≥ 0 then st.cash / (1 + fee_rate) else st.cash
  let buy_amount := min plan_amount max_affordable
  if buy_amount ≤ 0 then st
  else
    let lot := lot_of o.code
    let buy_shares :=
      if 1 < lot then ((⌊(buy_amount / o.px) / (lot : ℚ)⌋ * lot : ℤ) : ℚ)
      else buy_amount / o.px
    let adj_amount :=
      if 1 < lot then ((⌊(buy_amount / o.px) / (lot : ℚ)⌋ * lot : ℤ) : ℚ) * o.px
      else buy_amount
    if buy_shares ≤ 0 then st
    else
      let fee := adj_amount * fee_rate
      if adj_amount + fee > st.cash + 1/100000000 then st
      else
        { st with
            shares_of := updF st.shares_of o.code (st.shares_of o.code + buy_shares)
            cash := st.cash - (adj_amount + fee)
            total_fee := st.total_fee + fee
            turnover := st.turnover + adj_amount }

/-- Plan one asset's leg on a rebalance day (lines 1982-2004): price
must be positive, delta is lot-discretized, legs under `1e-8` shares
are dropped. -/
def planOrder [DecidableEq Code] (inp : BtInput Code) (total_equity : ℚ)
    (pos_val : Code → ℚ) (px : Code → ℚ) (c : Code) : Option (BtOrder Code) :=
  let p := px c
  if p ≤ 0 then none
  else
    let target_value := total_equity * inp.weights_of c
    let delta_value := target_value - pos_val c
    let raw := delta_value / p
    let lot := inp.lot_of c
    let ex :=
      if lot ≤ 1 then raw
      else
        let lots : ℤ := ⌊|raw| / (lot : ℚ)⌋
        if raw < 0 then -(((lots * lot : ℤ) : ℚ)) else ((lots * lot : ℤ) : ℚ)
    if |ex| < 1/100000000 then none else some ⟨c, ex, p, |ex| * p⟩

/-- One day of the loop (lines 1954-2072): mark to market, evaluate the
trigger for the configured mode, and on a trigger execute all sell legs
before all buy legs. -/
def dayStep [DecidableEq Code] (inp : BtInput Code) (i : ℕ) (px : Code → ℚ)
    (st : SimState Code) : SimState Code :=
  let pos_val := fun c => if px c > 0 then st.shares_of c * px c else 0
  let total_equity := st.cash + (inp.usable_codes.map pos_val).sum
  if total_equity ≤ 0 then st
  else
    let cur_w := fun c => pos_val c / total_equity
    let threshold_hit :=
      inp.usable_codes.any fun c =>
        decide (|cur_w c - inp.weights_of c| ≥ max 0 inp.threshold)
    let periodic_hit :=
      decide ((i : ℤ) - st.last_rebalance_idx ≥ max 1 inp.periodic_days) && decide (0 < i)
    let should :=
      match inp.mode with
      | RebMode.none => false
      | RebMode.threshold => threshold_hit
      | RebMode.periodic => periodic_hit
      | RebMode.hybrid => threshold_hit || periodic_hit
    if should = false then st
    else
      let planned := inp.usable_codes.filterMap (planOrder inp total_equity pos_val px)
      let sells := planned.filter fun o => o.exec_shares < 0
      let buys := planned.filter fun o => ¬ o.exec_shares < 0
      if planned.isEmpty then st
      else
        let st1 :=
          { st with
              rebalance_count := st.rebalance_count + 1
              last_rebalance_idx := (i : ℤ) }
        let st2 := sells.foldl (execSell inp.fee_rate) st1
        buys.foldl (execBuy inp.fee_rate inp.lot_of) st2

/-- Day-0 allocation (lines 1927-1935): initial capital split by target
weight at the first day's prices; cash starts at 0. -/
def initSim (inp : BtInput Code) : SimState Code :=
  { shares_of := fun c =>
      let p := (inp.navRows.headI) c
      if p ≤ 0 then 0 else inp.initial_capital * inp.weights_of c / p
    cash := 0
    last_rebalance_idx := 0
    rebalance_count := 0
    total_fee := 0
    turnover := 0 }

/-- The state after each simulated day, head = state before day 0. -/
def simStates [DecidableEq Code] (inp : BtInput Code) : List (SimState Code) :=
  (inp.navRows.enum).scanl (fun st ip => dayStep inp ip.1 ip.2 st) (initSim inp)

/-- Model of `run_backtest` (strategy.py 1840-2147) reduced to its simulation
core: the validations that precede the day loop, then the loop.
Caching, benchmark alignment and metrics reporting read but never write
the simulated state and are not part of this definition. -/
def run_backtest [DecidableEq Code] (inp : BtInput Code) :
    Except SErr (List (SimState Code)) :=
  if inp.initial_capital ≤ 0 then .error .invalidCapital
  else if inp.navRows.isEmpty then .error .emptyNav
  else .ok (simStates inp)

/-! ## Batch / order state machine and persistence
(strategy.py 836-903, 923-1032, 1184-1369).

The database state is reduced to the one batch an operation touches,
its order rows, and the account's position rows.  Row ids are modelled
by list positions assigned at insert time; timestamps are dropped
(pure bookkeeping). -/

inductive OStatus where
  | suggested
  | executed
  | skipped
deriving DecidableEq

inductive BStatus where
  | pending
  | completed
deriving DecidableEq

/-- A `rebalance_orders` row (the columns the embedded operations
read or write). -/
structure StoredOrder (Code : Type) where
  oid : ℕ
  fund_code : Code
  action : Action
  status : OStatus
  fee : ℚ
  executed_shares : Option ℚ
  executed_price : Option ℚ
  executed_amount : Option ℚ
deriving DecidableEq

/-- A `positions` row. -/
structure Position (Code : Type) where
  code : Code
  shares : ℚ
  cost : ℚ
deriving DecidableEq

/-- The persistent state an operation can read or write: the batch
under consideration (`none` = no such batch), its orders, and the
account's positions. -/
structure PState (Code : Type) where
  batch : Option BStatus
  orders : List (StoredOrder Code)
  positions : List (Position Code)
deriving DecidableEq

/-- Transaction wrapper: `run_txn st fault body` models the source's single-connection
transaction blocks (`try: ...writes...; conn.commit() except:
conn.rollback(); raise`): the pure `body` stages every write; a raised
error or an injected persistence `fault` rolls the state back to `st`. -/
def run_txn {α : Type} (st : PState Code) (fault : Bool)
    (body : Except SErr (PState Code × α)) : PState Code × Except SErr α :=
  match body with
  | .error e => (st, .error e)
  | .ok sa => if fault then (st, .error .ioFault) else (sa.1, .ok sa.2)

/-- Order-row insertion for a freshly generated batch (lines 862-891 and
984-1013): hold orders are stored as `skipped`, the rest as
`suggested`; ids are assigned in insertion order. -/
def storeOrders (os : List (Order Code)) : List (StoredOrder Code) :=
  os.enum.map fun io =>
    { oid := io.1
      fund_code := io.2.fund_code
      action := io.2.action
      status := if io.2.action = Action.hold then OStatus.skipped else OStatus.suggested
      fee := io.2.fee
      executed_shares := none
      executed_price := none
      executed_amount := none }

/-- The transactional body of `generate_rebalance_orders(persist=True)`
(lines 836-897): create the batch as pending, insert the orders, and
complete the batch immediately when no actionable order exists. -/
def generate_persist_body [LinearOrder Code] (st : PState Code) (genv : GenInput Code) :
    Except SErr (PState Code × GenResult Code) :=
  match generate_rebalance_orders genv with
  | .error e => .error e
  | .ok res =>
      .ok
        ({ st with
            batch := some (if res.actionable_count = 0 then BStatus.completed else BStatus.pending)
            orders := storeOrders res.orders },
          res)

/-- Model of `generate_rebalance_orders(..., persist=True)` as a state
transformer. -/
def generate_and_persist [LinearOrder Code] (st : PState Code) (fault : Bool)
    (genv : GenInput Code) : PState Code × Except SErr (GenResult Code) :=
  run_txn st fault (generate_persist_body st genv)

/-- Body of `refresh_rebalance_batch` (strategy.py 923-1032): reject a
missing or completed batch, reject when any buy/sell order of the batch
has left `suggested`, otherwise recompute from scratch (`persist=False`
call at lines 970-978, inputs abstracted as `genv`), replace the order
rows and set the batch status from the recomputed actionable count. -/
def refresh_batch_body [LinearOrder Code] (st : PState Code) (genv : GenInput Code) :
    Except SErr (PState Code × ℕ) :=
  match st.batch with
  | none => .error .batchNotFound
  | some BStatus.completed => .error .batchCompleted
  | some BStatus.pending =>
      if st.orders.any fun o =>
          (o.action = Action.buy ∨ o.action = Action.sell) ∧ o.status ≠ OStatus.suggested then
        .error .batchEdited
      else
        match generate_rebalance_orders genv with
        | .error e => .error e
        | .ok res =>
            .ok
              ({ st with
                  batch :=
                    some (if res.actionable_count = 0 then BStatus.completed else BStatus.pending)
                  orders := storeOrders res.orders },
                res.actionable_count)

/-- Model of `refresh_rebalance_batch` as a state transformer. -/
def refresh_rebalance_batch [LinearOrder Code] (st : PState Code) (fault : Bool)
    (genv : GenInput Code) : PState Code × Except SErr ℕ :=
  run_txn st fault (refresh_batch_body st genv)

/-- Body of `complete_rebalance_batch` (strategy.py 1184-1226): a
missing batch is an error; an already-completed batch returns `ok`
without touching any state; otherwise completion is rejected while an
actionable order is still `suggested`. -/
def complete_batch_body (st : PState Code) : Except SErr (PState Code × BStatus) :=
  match st.batch with
  | none => .error .batchNotFound
  | some BStatus.completed => .ok (st, BStatus.completed)
  | some BStatus.pending =>
      if st.orders.any fun o =>
          (o.action = Action.buy ∨ o.action = Action.sell) ∧ o.status = OStatus.suggested then
        .error .pendingRemain
      else .ok ({ st with batch := some BStatus.completed }, BStatus.completed)

/-- Model of `complete_rebalance_batch` as a state transformer. -/
def complete_rebalance_batch (st : PState Code) (fault : Bool) :
    PState Code × Except SErr BStatus :=
  run_txn st fault (complete_batch_body st)

/-- Model of `_assert_batch_editable` (lines 1229-1235) on the single-batch
state. -/
def batchEditable (st : PState Code) : Except SErr Unit :=
  match st.batch with
  | some BStatus.completed => .error .batchCompleted
  | _ => .ok ()

def findOrder (st : PState Code) (oid : ℕ) : Option (StoredOrder Code) :=
  st.orders.find? fun o => o.oid == oid

/-- Body of `update_rebalance_order_status` (strategy.py 1238-1264):
the status argument is already one of the three legal statuses (the
`status not in {...}` check is enforced by the `OStatus` type); the
order must exist and its batch must not be completed.  No check on the
order's action is performed. -/
def update_status_body (st : PState Code) (oid : ℕ) (status : OStatus) :
    Except SErr (PState Code × Unit) :=
  match findOrder st oid with
  | none => .error .orderNotFound
  | some _ =>
      match batchEditable st with
      | .error e => .error e
      | .ok _ =>
          .ok
            ({ st with
                orders := st.orders.map fun o =>
                  if o.oid = oid then { o with status := status } else o },
              ())

/-- Model of `update_rebalance_order_status` as a state transformer. -/
def update_rebalance_order_status (st : PState Code) (fault : Bool)
    (oid : ℕ) (status : OStatus) : PState Code × Except SErr Unit :=
  run_txn st fault (update_status_body st oid status)

/-- Modelled from the spec: `upsert_position` of `services/account.py`
is not under `src/`; per §6 (Position Repository) it replaces or
inserts the position row for a code, and per §5 it takes part in the
caller's transaction. -/
def upsert_position [DecidableEq Code] (st : PState Code) (c : Code) (cost shares : ℚ) :
    PState Code :=
  if st.positions.any fun p => p.code = c then
    { st with
        positions := st.positions.map fun p =>
          if p.code = c then { p with cost := cost, shares := shares } else p }
  else { st with positions := st.positions ++ [⟨c, shares, cost⟩] }

/-- Modelled from the spec: `remove_position` of `services/account.py`
is not under `src/`; per §6 it removes the position row for a code,
inside the caller's transaction. -/
def remove_position [DecidableEq Code] (st : PState Code) (c : Code) : PState Code :=
  { st with positions := st.positions.filter fun p => ¬ p.code = c }

/-- Body of `execute_rebalance_order` (strategy.py 1267-1355): validate
the fill, require an existing order in an editable batch with a
buy/sell action, mutate the account position (a sell is rejected beyond
the held shares; a position emptied by a sell is removed), then mark
the order row executed with the realized fill. -/
def execute_order_body [DecidableEq Code] (st : PState Code) (oid : ℕ)
    (executed_shares executed_price : ℚ) : Except SErr (PState Code × Unit) :=
  if executed_shares ≤ 0 then .error .invalidShares
  else if executed_price ≤ 0 then .error .invalidPrice
  else
    match findOrder st oid with
    | none => .error .orderNotFound
    | some o =>
        match batchEditable st with
        | .error e => .error e
        | .ok _ =>
            if ¬ (o.action = Action.buy ∨ o.action = Action.sell) then .error .onlyBuySell
            else
              let pos := st.positions.find? fun p => p.code = o.fund_code
              let old_shares := (pos.map Position.shares).getD 0
              let old_cost := (pos.map Position.cost).getD 0
              let trade_amount := roundTo 2 (executed_shares * executed_price)
              let afterPos : Except SErr (PState Code) :=
                if o.action = Action.buy then
                  let new_shares := roundTo 4 (old_shares + executed_shares)
                  if new_shares ≤ 0 then .error .invalidResultingShares
                  else
                    let new_cost :=
                      if old_shares > 0 then
                        roundTo 4 ((old_cost * old_shares + executed_price * executed_shares)
                          / new_shares)
                      else roundTo 4 executed_price
                    .ok (upsert_position st o.fund_code new_cost new_shares)
                else
                  if old_shares ≤ 0 then .error .positionNotFound
                  else if executed_shares > old_shares then .error .sharesExceeded
                  else
                    let new_shares := roundTo 4 (old_shares - executed_shares)
                    if new_shares ≤ 0 then .ok (remove_position st o.fund_code)
                    else .ok (upsert_position st o.fund_code old_cost new_shares)
              match afterPos with
              | .error e => .error e
              | .ok st1 =>
                  .ok
                    ({ st1 with
                        orders := st1.orders.map fun x =>
                          if x.oid = oid then
                            { x with
                                status := OStatus.executed
                                executed_shares := some executed_shares
                                executed_price := some executed_price
                                executed_amount := some trade_amount }
                          else x },
                      ())

/-- Model of `execute_rebalance_order` as a state transformer. -/
def execute_rebalance_order [DecidableEq Code] (st : PState Code) (fault : Bool)
    (oid : ℕ) (executed_shares executed_price : ℚ) : PState Code × Except SErr Unit :=
  run_txn st fault (execute_order_body st oid executed_shares executed_price)

/-! ## Performance metrics (`_calculate_metrics`, strategy.py 1638-1706).

Return series are date-indexed (`List (ℕ × ℝ)`, ascending unique
dates); `pd.concat(..., join="inner")` becomes `innerJoin`.  The model
has no NaN, so the source's `dropna()` calls are identity. -/

/-- Series mean (population). -/
noncomputable def rmean (l : List ℝ) : ℝ := l.sum / l.length

/-- Population variance (`ddof=0`). -/
noncomputable def varP (l : List ℝ) : ℝ :=
  ((l.map fun x => (x - rmean l) ^ 2).sum) / l.length

/-- Population standard deviation. -/
noncomputable def stdP (l : List ℝ) : ℝ := Real.sqrt (varP l)

/-- Population covariance (`np.cov(p, b, ddof=0)[0, 1]`). -/
noncomputable def covP (p b : List ℝ) : ℝ :=
  (((p.zip b).map fun q => (q.1 - rmean p) * (q.2 - rmean b)).sum) / p.length

/-- Model of `(1 + returns).cumprod()`. -/
noncomputable def cumNav (rs : List ℝ) : List ℝ :=
  (rs.scanl (fun acc r => acc * (1 + r)) 1).tail

/-- Model of `.cummax()`. -/
noncomputable def runMax : List ℝ → List ℝ
  | [] => []
  | x :: xs => xs.scanl max x

/-- Model of `.min()` of a series, `None` when empty. -/
noncomputable def listMin : List ℝ → Option ℝ
  | [] => none
  | x :: xs => some (xs.foldl min x)

/-- Model of `equity.pct_change().fillna(0.0)`. -/
noncomputable def pctChangeAux (prev : ℝ) : List ℝ → List ℝ
  | [] => []
  | y :: ys => (y / prev - 1) :: pctChangeAux y ys

noncomputable def pctChange : List ℝ → List ℝ
  | [] => []
  | x :: xs => 0 :: pctChangeAux x xs

def lookupDate (l : List (ℕ × ℝ)) (d : ℕ) : Option ℝ :=
  (l.find? fun e => e.1 == d).map Prod.snd

/-- Model of `pd.concat([p, b], axis=1, join="inner")` for series with unique
ascending date indices. -/
def innerJoin (p b : List (ℕ × ℝ)) : List (ℝ × ℝ) :=
  p.filterMap fun dv => (lookupDate b dv.1).map fun w => (dv.2, w)

/-- Model of `annual_vol` (line 1669). -/
noncomputable def annualVolOf (rs : List ℝ) : ℝ :=
  stdP rs * Real.sqrt 252

structure Metrics where
  annual_return : Option ℝ
  annual_volatility : Option ℝ
  sharpe : Option ℝ
  alpha : Option ℝ
  beta : Option ℝ
  calmar : Option ℝ
  info_ratio : Option ℝ
  max_drawdown : Option ℝ

/-- The all-`None` result of the two early returns (lines 1639-1662). -/
def Metrics.empty : Metrics :=
  ⟨none, none, none, none, none, none, none, none⟩

/-- Model of `_calculate_metrics` (strategy.py 1638-1706).  The risk-free rate
is 0.02, the year 252 trading days.  `information_ratio` is the field
`info_ratio`. -/
noncomputable def calculate_metrics (p b : List (ℕ × ℝ)) : Metrics :=
  let rs := p.map Prod.snd
  if rs.length < 2 then Metrics.empty
  else
    let nav := cumNav rs
    let total_return := nav.getLastD 1 - 1
    let years : ℝ := max ((rs.length : ℝ) / 252) (1 / 252)
    let annual_return := (1 + total_return) ^ (1 / years) - 1
    let annual_vol := annualVolOf rs
    let sharpe :=
      if annual_vol > 1/100000000 then some ((annual_return - 2/100) / annual_vol) else none
    let rmax := runMax nav
    let dds := (nav.zip rmax).map fun q => q.1 / q.2 - 1
    let max_dd := listMin dds
    let calmar :=
      match max_dd with
      | some m => if m < 0 then some (annual_return / |m|) else none
      | none => none
    let pb := innerJoin p b
    let ps := pb.map Prod.fst
    let bs := pb.map Prod.snd
    let var_b := varP bs
    let beta :=
      if b ≠ [] ∧ 20 ≤ pb.length ∧ var_b > 1/1000000000000 then
        some (covP ps bs / var_b)
      else none
    let alpha :=
      if b ≠ [] ∧ 20 ≤ pb.length ∧ var_b > 1/1000000000000 then
        some ((rmean ps - (covP ps bs / var_b) * rmean bs) * 252)
      else none
    let active := pb.map fun q => q.1 - q.2
    let ir :=
      if b ≠ [] ∧ 20 ≤ pb.length ∧ stdP active > 1/1000000000000 then
        some (rmean active / stdP active * Real.sqrt 252)
      else none
    { annual_return := some annual_return
      annual_volatility := some annual_vol
      sharpe := sharpe
      alpha := alpha
      beta := beta
      calmar := calmar
      info_ratio := ir
      max_drawdown := max_dd }

/-! ## Concrete inputs used by counterexamples and witnesses -/

/-- One asset (code 0), target weight 1, 10 shares held at price
`1e-8`, capital adjustment `1e-9` (nonzero but below the `1e-8`
force-reallocation tolerance), `min_deviation` 0.005, lot size 1. -/
def inpC2 : GenInput ℕ :=
  { hasActiveVersion := true
    holdings := [(0, 1)]
    scope_codes := []
    shares_of := fun _ => 10
    price_of := fun _ => some (1/100000000)
    min_deviation := 1/200
    lot_size := 1
    capital_adjustment := 1/1000000000
    fee_rate := 0 }

/-- Two assets at price 1, targets 50/50, current split 47.5/52.5
shares, no capital adjustment, lot size 1: both deviations (0.025)
exceed `min_deviation` 0.005 and both raw deltas are ±2.5 shares. -/
def inpC4 : GenInput ℕ :=
  { hasActiveVersion := true
    holdings := [(0, 1/2), (1, 1/2)]
    scope_codes := []
    shares_of := fun c => if c = 0 then 95/2 else 105/2
    price_of := fun _ => some 1
    min_deviation := 1/200
    lot_size := 1
    capital_adjustment := 0
    fee_rate := 0 }

/-- The `inpC4` portfolio with lot size 100: both raw deltas (±2.5
shares) are under one whole lot, so both candidate trades revert to
hold. -/
def inpLot100 : GenInput ℕ :=
  { hasActiveVersion := true
    holdings := [(0, 1/2), (1, 1/2)]
    scope_codes := []
    shares_of := fun c => if c = 0 then 95/2 else 105/2
    price_of := fun _ => some 1
    min_deviation := 1/200
    lot_size := 100
    capital_adjustment := 0
    fee_rate := 0 }

/-- One asset, already on target: the generator succeeds and produces a
single hold order. -/
def inpHold : GenInput ℕ :=
  { hasActiveVersion := true
    holdings := [(0, 1)]
    scope_codes := []
    shares_of := fun _ => 10
    price_of := fun _ => some 1
    min_deviation := 1/200
    lot_size := 1
    capital_adjustment := 0
    fee_rate := 0 }

/-- A two-asset, two-day backtest with an out-of-range fee rate of 2.0
(200%): `run_backtest` accepts it, and the day-1 rebalance sell pays a
fee of twice the proceeds, driving cash to −25. -/
def inpC3 : BtInput ℕ :=
  { usable_codes := [0, 1]
    weights_of := fun _ => 1/2
    lot_of := fun _ => 1
    navRows := [fun _ => 1, fun c => if c = 0 then 2 else 1]
    initial_capital := 100
    mode := RebMode.threshold
    threshold := 0
    periodic_days := 20
    fee_rate := 2 }

/-- The `inpC3` backtest with the fee rate at the documented maximum
0.02: used to witness the amended cash invariant. -/
def inpC3ok : BtInput ℕ :=
  { usable_codes := [0, 1]
    weights_of := fun _ => 1/2
    lot_of := fun _ => 1
    navRows := [fun _ => 1, fun c => if c = 0 then 2 else 1]
    initial_capital := 100
    mode := RebMode.threshold
    threshold := 0
    periodic_days := 20
    fee_rate := 1/50 }

/-- A pending batch holding one hold order (stored as `skipped`, a
terminal status other than `suggested`) and one untouched buy order. -/
def stC6 : PState ℕ :=
  { batch := some BStatus.pending
    orders := [⟨0, 0, Action.hold, OStatus.skipped, 0, none, none, none⟩,
      ⟨1, 1, Action.buy, OStatus.suggested, 0, none, none, none⟩]
    positions := [] }

/-- A pending batch holding a single hold order with its invariant
status `skipped`. -/
def stC9 : PState ℕ :=
  { batch := some BStatus.pending
    orders := [⟨0, 0, Action.hold, OStatus.skipped, 0, none, none, none⟩]
    positions := [] }

/-- The empty persistent state: no batch, no orders, no positions. -/
def stEmpty : PState ℕ :=
  { batch := none
    orders := []
    positions := [] }

/-! ## Theorems -/

theorem valueSum_nil (c : String) : valueSum [] c = 0 := rfl

theorem valueSum_cons (a : String) (b : ℚ) (t : List (String × ℚ)) (c : String) :
    valueSum ((a, b) :: t) c = (if a = c then b else 0) + valueSum t c := by
  by_cases h : a = c <;> simp [valueSum, h]

theorem valueSum_eq_zero_of_not_mem {l : List (String × ℚ)} {c : String}
    (h : c ∉ l.map Prod.fst) : valueSum l c = 0 := by
  induction l with
  | nil => rfl
  | cons hd t ih =>
    obtain ⟨a, b⟩ := hd
    simp only [List.map_cons, List.mem_cons] at h
    push_neg at h
    rw [valueSum_cons, if_neg (Ne.symm h.1), ih h.2, add_zero]

theorem valueSum_eq_of_mem {l : List (String × ℚ)} {c : String} {w : ℚ}
    (hnd : (l.map Prod.fst).Nodup) (hm : (c, w) ∈ l) : valueSum l c = w := by
  induction l with
  | nil => cases hm
  | cons hd t ih =>
    obtain ⟨a, b⟩ := hd
    simp only [List.map_cons, List.nodup_cons] at hnd
    rcases List.mem_cons.mp hm with h | h
    · obtain ⟨rfl, rfl⟩ := Prod.mk.injEq .. ▸ h
      rw [valueSum_cons, if_pos rfl,
        valueSum_eq_zero_of_not_mem hnd.1, add_zero]
    · have hac : a ≠ c := by
        rintro rfl
        exact hnd.1 (List.mem_map.mpr ⟨(a, w), h, rfl⟩)
      rw [valueSum_cons, if_neg hac, ih hnd.2 h, zero_add]

theorem addWeight_sum (l : List (String × ℚ)) (c : String) (w : ℚ) :
    ((addWeight l c w).map Prod.snd).sum = (l.map Prod.snd).sum + w := by
  induction l with
  | nil => simp [addWeight]
  | cons hd t ih =>
    obtain ⟨c', w'⟩ := hd
    by_cases h : c' = c
    · simp [addWeight, h]; ring
    · simp [addWeight, h, ih]; ring

theorem addWeight_valueSum (l : List (String × ℚ)) (c : String) (w : ℚ) (c' : String) :
    valueSum (addWeight l c w) c' = valueSum l c' + (if c = c' then w else 0) := by
  induction l with
  | nil =>
    by_cases h : c = c' <;> simp [addWeight, valueSum_cons, valueSum_nil, h]
  | cons hd t ih =>
    obtain ⟨a, b⟩ := hd
    by_cases h : a = c
    · subst h
      by_cases h2 : a = c' <;> simp [addWeight, valueSum_cons, h2] <;> ring
    · simp only [addWeight, if_neg h, valueSum_cons, ih]
      ring

theorem addWeight_keys_of_mem {l : List (String × ℚ)} {c : String} (w : ℚ)
    (h : c ∈ l.map Prod.fst) :
    (addWeight l c w).map Prod.fst = l.map Prod.fst := by
  induction l with
  | nil => cases h
  | cons hd t ih =>
    obtain ⟨a, b⟩ := hd
    by_cases hac : a = c
    · simp [addWeight, hac]
    · simp only [List.map_cons, List.mem_cons] at h
      rcases h with h | h
      · exact absurd h.symm hac
      · simp [addWeight, hac, ih h]

theorem addWeight_keys_of_not_mem {l : List (String × ℚ)} {c : String} (w : ℚ)
    (h : c ∉ l.map Prod.fst) :
    (addWeight l c w).map Prod.fst = l.map Prod.fst ++ [c] := by
  induction l with
  | nil => simp [addWeight]
  | cons hd t ih =>
    obtain ⟨a, b⟩ := hd
    simp only [List.map_cons, List.mem_cons] at h
    push_neg at h
    simp [addWeight, Ne.symm h.1, ih h.2]

theorem addWeight_nodup {l : List (String × ℚ)} {c : String} (w : ℚ)
    (h : (l.map Prod.fst).Nodup) :
    ((addWeight l c w).map Prod.fst).Nodup := by
  by_cases hm : c ∈ l.map Prod.fst
  · rw [addWeight_keys_of_mem w hm]; exact h
  · rw [addWeight_keys_of_not_mem w hm]
    simp [List.nodup_append, h, hm]

theorem mergeHoldings_ok (normCode : String → String) :
    ∀ (t acc m : List (String × ℚ)), mergeHoldings normCode t acc = .ok m →
      ∃ pl, parsedHoldings normCode t = some pl
        ∧ (∀ c, valueSum m c = valueSum acc c + valueSum pl c)
        ∧ (m.map Prod.snd).sum = (acc.map Prod.snd).sum + (pl.map Prod.snd).sum
        ∧ ((acc.map Prod.fst).Nodup → (m.map Prod.fst).Nodup) := by
  intro t
  induction t with
  | nil =>
    intro acc m hm
    simp only [mergeHoldings, Except.ok.injEq] at hm
    subst hm
    exact ⟨[], rfl, fun c => by simp [valueSum_nil], by simp, fun h => h⟩
  | cons hd t ih =>
    intro acc m hm
    obtain ⟨c0, w0⟩ := hd
    simp only [mergeHoldings] at hm
    by_cases hc : normCode c0 = ""
    · simp [hc] at hm
    · rw [if_neg hc] at hm
      cases hpw : parse_weight w0 with
      | error e => rw [hpw] at hm; cases hm
      | ok pw =>
        rw [hpw] at hm
        obtain ⟨pl, hpl, hv, hs, hnd⟩ := ih (addWeight acc (normCode c0) pw) m hm
        refine ⟨(normCode c0, pw) :: pl, ?_, ?_, ?_, ?_⟩
        · simp [parsedHoldings, hc, hpw, hpl]
        · intro c
          rw [hv c, addWeight_valueSum, valueSum_cons]
          ring
        · rw [hs, addWeight_sum]; simp; ring
        · intro h
          exact hnd (addWeight_nodup pw h)

/-- Claim C1. For every holdings input accepted by
`_normalize_holdings` (used by both `create_portfolio` and
`create_strategy_version`): the normalized weights sum to exactly 1
(hence to 1 within `1e-9`); the output codes are duplicate-free, each
output weight being the sum of the parsed weights of all input entries
with that (normalized) code divided by the grand total — duplicates
merge by summation; and `_parse_weight` rejects any weight `≤ 0` or
`> 100`, keeps a weight `≤ 1` as a fraction, and divides a weight in
`(1, 100]` by 100. -/
theorem c1_normalize_holdings_spec (normCode : String → String)
    (hs out : List (String × ℚ)) (v : ℚ)
    (h : normalize_holdings normCode hs = .ok out) :
    ((out.map Prod.snd).sum = 1
      ∧ (out.map Prod.fst).Nodup
      ∧ ∃ pl, parsedHoldings normCode hs = some pl
          ∧ ∀ cw ∈ out,
              cw.2 = valueSum pl cw.1 / (pl.map Prod.snd).sum)
    ∧ (v ≤ 0 ∨ 100 < v → parse_weight v = .error .invalidWeight)
    ∧ (0 < v → v ≤ 1 → parse_weight v = .ok v)
    ∧ (1 < v → v ≤ 100 → parse_weight v = .ok (v / 100)) := by
  constructor
  · simp only [normalize_holdings] at h
    by_cases he : hs = []
    · simp [he] at h
    · rw [if_neg he] at h
      cases hmerge : mergeHoldings normCode hs [] with
      | error e => rw [hmerge] at h; cases h
      | ok merged =>
        rw [hmerge] at h
        dsimp only at h
        obtain ⟨pl, hpl, hv, hsum, hnd⟩ := mergeHoldings_ok normCode hs [] merged hmerge
        by_cases ht : (merged.map Prod.snd).sum ≤ 0
        · simp [ht] at h
        · rw [if_neg ht] at h
          push_neg at ht
          obtain rfl := Except.ok.inj h
          have hmnd : (merged.map Prod.fst).Nodup := hnd (by simp)
          have htot : (merged.map Prod.snd).sum = (pl.map Prod.snd).sum := by
            simpa using hsum
          refine ⟨?_, ?_, pl, hpl, ?_⟩
          · rw [List.map_map]
            have hmap : (List.map (Prod.snd ∘ fun p : String × ℚ =>
                  (p.1, p.2 / (merged.map Prod.snd).sum)) merged)
                = merged.map fun p => Prod.snd p * ((merged.map Prod.snd).sum)⁻¹ := by
              simp [Function.comp_def, div_eq_mul_inv]
            rw [hmap, List.sum_map_mul_right]
            exact mul_inv_cancel₀ (ne_of_gt ht)
          · rw [List.map_map]
            simpa [Function.comp_def] using hmnd
          · intro cw hcw
            simp only [List.mem_map] at hcw
            obtain ⟨p, hp, rfl⟩ := hcw
            have : valueSum merged p.1 = p.2 := valueSum_eq_of_mem hmnd (by simp [hp])
            have h2 := hv p.1
            rw [valueSum_nil, zero_add] at h2
            simp only
            rw [← htot, ← h2, this]
  · refine ⟨?_, ?_, ?_⟩
    · rintro (hv | hv)
      · simp [parse_weight, hv]
      · have h1 : ¬ v ≤ 0 := by linarith
        have h2 : v > 1 := by linarith
        have h3 : v / 100 > 1 := by linarith
        simp only [parse_weight, if_neg h1, if_pos h2]
        rw [if_pos (Or.inr h3)]
    · intro h0 h1
      have hn : ¬ v ≤ 0 := not_le.mpr h0
      have hg : ¬ v > 1 := not_lt.mpr h1
      simp only [parse_weight, if_neg hn, if_neg hg]
      rw [if_neg (by push_neg; exact ⟨h0, h1⟩)]
    · intro h1 h100
      have hn : ¬ v ≤ 0 := by push_neg; linarith
      simp only [parse_weight, if_neg hn, if_pos h1]
      rw [if_neg (by push_neg; constructor <;> [linarith; linarith])]

/-- Witness for C1 at the concrete input
`[("A", 30), ("B", 50), ("A", 20)]` with the identity normalizer: the
two "A" rows merge to weight 1/2, "B" gets 1/2, the sum is 1, and the
parse clauses hold at `v = 50`. -/
theorem c1_witness :
    normalize_holdings id [("A", 30), ("B", 50), ("A", 20)] =
        .ok [("A", 1/2), ("B", 1/2)]
      ∧ ((([("A", (1:ℚ)/2), ("B", 1/2)]).map Prod.snd).sum = 1)
      ∧ parse_weight 50 = .ok (1/2) := by
  have hok : normalize_holdings id [("A", 30), ("B", 50), ("A", 20)] =
      .ok [("A", 1/2), ("B", 1/2)] := by
    norm_num +decide [normalize_holdings, mergeHoldings, parse_weight, addWeight]
  have h := c1_normalize_holdings_spec id [("A", 30), ("B", 50), ("A", 20)]
    [("A", 1/2), ("B", 1/2)] 50 hok
  refine ⟨hok, h.1.1, ?_⟩
  have := h.2.2.2 (by norm_num) (by norm_num)
  rw [this]
  norm_num

/-! ### Generator structure lemmas -/

theorem generate_ok_orders [LinearOrder Code] {inp : GenInput Code} {res : GenResult Code}
    (h : generate_rebalance_orders inp = .ok res) :
    res.orders = genOrdersSorted inp := by
  unfold generate_rebalance_orders at h
  split_ifs at h
  exact congrArg GenResult.orders (Except.ok.inj h).symm

theorem buildOrder_code [DecidableEq Code] {inp : GenInput Code} {tv tt : ℚ} {c : Code}
    {o : Order Code} (h : buildOrder inp tv tt c = some o) : o.fund_code = c := by
  unfold buildOrder at h
  cases hp : priced inp c with
  | none => rw [hp] at h; cases h
  | some p =>
    rw [hp] at h
    obtain rfl := Option.some.inj h
    rfl

theorem buildOrder_fields [DecidableEq Code] {inp : GenInput Code} {tv tt : ℚ} {c : Code}
    {o : Order Code} (h : buildOrder inp tv tt c = some o) :
    ∃ raw a0,
      o.action = (lotAdjust (appliedLot inp) a0 raw).1
        ∧ o.delta_shares = roundTo 4 (lotAdjust (appliedLot inp) a0 raw).2
        ∧ o.raw_delta_shares = roundTo 4 raw := by
  unfold buildOrder at h
  cases hp : priced inp c with
  | none => rw [hp] at h; cases h
  | some p =>
    rw [hp] at h
    obtain rfl := Option.some.inj h
    exact ⟨_, _, rfl, rfl, rfl⟩

theorem lotAdjust_of_le {lot : ℤ} (a : Action) (raw : ℚ) (h : lot ≤ 1) :
    lotAdjust lot a raw = (a, raw) := by
  rw [lotAdjust, if_neg]
  rintro ⟨-, hlt⟩
  exact absurd h (not_le.mpr hlt)

theorem lotAdjust_hold (lot : ℤ) (raw : ℚ) :
    lotAdjust lot Action.hold raw = (Action.hold, raw) := by
  rw [lotAdjust, if_neg]
  rintro ⟨hne, -⟩
  exact hne rfl

theorem roundHalfEven_intCast (n : ℤ) : roundHalfEven (n : ℚ) = n := by
  rw [roundHalfEven]
  norm_num

theorem roundTo_intCast (d : ℕ) (n : ℤ) : roundTo d (n : ℚ) = (n : ℚ) := by
  rw [roundTo]
  have h1 : ((n : ℚ) * 10 ^ d) = ((n * 10 ^ d : ℤ) : ℚ) := by push_cast; ring
  rw [h1, roundHalfEven_intCast]
  push_cast
  rw [mul_div_assoc, div_self (by positivity), mul_one]

theorem lotAdjust_multiple {lot : ℤ} {a : Action} {raw : ℚ} (h1 : 1 < lot)
    (h2 : (lotAdjust lot a raw).1 ≠ Action.hold) :
    ∃ k : ℤ, (lotAdjust lot a raw).2 = ((k * lot : ℤ) : ℚ) := by
  by_cases ha : a = Action.hold
  · subst ha; rw [lotAdjust_hold] at h2; exact absurd rfl h2
  · rw [lotAdjust, if_pos ⟨ha, h1⟩] at h2 ⊢
    by_cases hl : ⌊|raw| / (lot : ℚ)⌋ ≤ 0
    · rw [if_pos hl] at h2; exact absurd rfl h2
    · rw [if_neg hl] at h2 ⊢
      by_cases hr : raw < 0
      · exact ⟨-⌊|raw| / (lot : ℚ)⌋, by rw [if_pos hr]; push_cast; ring⟩
      · exact ⟨⌊|raw| / (lot : ℚ)⌋, by rw [if_neg hr]⟩

theorem lotAdjust_under_one_lot {lot : ℤ} (a : Action) {raw : ℚ} (h1 : 1 < lot)
    (h2 : |raw| < (lot : ℚ)) : (lotAdjust lot a raw).1 = Action.hold := by
  by_cases ha : a = Action.hold
  · subst ha; rw [lotAdjust_hold]
  · have hlotpos : (0 : ℚ) < (lot : ℚ) := by exact_mod_cast lt_trans one_pos h1
    have hfl : ⌊|raw| / (lot : ℚ)⌋ = 0 := by
      rw [Int.floor_eq_zero_iff]
      constructor
      · positivity
      · rw [div_lt_one hlotpos]; exact h2
    rw [lotAdjust, if_pos ⟨ha, h1⟩, if_pos (le_of_eq hfl)]

/-! ### Stable descending sort lemmas -/

theorem mem_insertByKeyDesc {α : Type} (key : α → ℚ) (x a : α) :
    ∀ l : List α, a ∈ insertByKeyDesc key x l ↔ a = x ∨ a ∈ l := by
  intro l
  induction l with
  | nil => simp [insertByKeyDesc]
  | cons y ys ih =>
    rw [insertByKeyDesc]
    by_cases h : key x < key y
    · rw [if_pos h]
      simp only [List.mem_cons, ih]
      tauto
    · rw [if_neg h]
      simp only [List.mem_cons]

theorem mem_sortByKeyDesc {α : Type} (key : α → ℚ) (a : α) :
    ∀ l : List α, a ∈ sortByKeyDesc key l ↔ a ∈ l := by
  intro l
  induction l with
  | nil => simp [sortByKeyDesc]
  | cons x xs ih =>
    simp only [sortByKeyDesc, mem_insertByKeyDesc, List.mem_cons, ih]

theorem insertByKeyDesc_pairwise {α : Type} (key : α → ℚ) (Q : α → α → Prop)
    (x : α) :
    ∀ l : List α,
      l.Pairwise (fun a b => key b < key a ∨ (key a = key b ∧ Q a b)) →
      (∀ y ∈ l, Q x y) →
      (insertByKeyDesc key x l).Pairwise
        (fun a b => key b < key a ∨ (key a = key b ∧ Q a b)) := by
  intro l
  induction l with
  | nil => intro _ _; simp [insertByKeyDesc]
  | cons y ys ih =>
    intro hl hx
    rw [List.pairwise_cons] at hl
    rw [insertByKeyDesc]
    by_cases h : key x < key y
    · rw [if_pos h, List.pairwise_cons]
      refine ⟨?_, ih hl.2 fun z hz => hx z (List.mem_cons_of_mem y hz)⟩
      intro z hz
      rcases (mem_insertByKeyDesc key x z ys).mp hz with rfl | hz2
      · exact Or.inl h
      · exact hl.1 z hz2
    · rw [if_neg h, List.pairwise_cons]
      push_neg at h
      refine ⟨?_, List.pairwise_cons.mpr hl⟩
      intro z hz
      have hQ : Q x z := hx z hz
      rcases List.mem_cons.mp hz with hzy | hz2
      · subst hzy
        rcases lt_or_eq_of_le h with hlt | heq
        · exact Or.inl hlt
        · exact Or.inr ⟨heq.symm, hQ⟩
      · rcases hl.1 z hz2 with hlt | ⟨heq, -⟩
        · exact Or.inl (lt_of_lt_of_le hlt h)
        · rcases lt_or_eq_of_le h with hlt2 | heq2
          · exact Or.inl (heq ▸ hlt2)
          · exact Or.inr ⟨heq2.symm.trans heq, hQ⟩

theorem sortByKeyDesc_pairwise {α : Type} (key : α → ℚ) (Q : α → α → Prop) :
    ∀ l : List α, l.Pairwise Q →
      (sortByKeyDesc key l).Pairwise
        (fun a b => key b < key a ∨ (key a = key b ∧ Q a b)) := by
  intro l
  induction l with
  | nil => intro _; simp [sortByKeyDesc]
  | cons x xs ih =>
    intro hl
    rw [List.pairwise_cons] at hl
    refine insertByKeyDesc_pairwise key Q x (sortByKeyDesc key xs) (ih hl.2) ?_
    intro y hy
    exact hl.1 y ((mem_sortByKeyDesc key y xs).mp hy)

/-! ### Sorted dedup lemmas -/

theorem mem_sortedInsert [LinearOrder Code] (c a : Code) :
    ∀ l : List Code, a ∈ sortedInsert c l ↔ a = c ∨ a ∈ l := by
  intro l
  induction l with
  | nil => simp [sortedInsert]
  | cons d ds ih =>
    rw [sortedInsert]
    by_cases h1 : c < d
    · rw [if_pos h1]
      simp only [List.mem_cons]
    · rw [if_neg h1]
      by_cases h2 : c = d
      · rw [if_pos h2]
        constructor
        · exact fun hm => Or.inr hm
        · rintro (rfl | hm)
          · rw [h2]; exact List.mem_cons_self _ _
          · exact hm
      · rw [if_neg h2]
        simp only [List.mem_cons, ih]
        tauto

theorem sortedInsert_pairwise [LinearOrder Code] (c : Code) :
    ∀ l : List Code, l.Pairwise (· < ·) → (sortedInsert c l).Pairwise (· < ·) := by
  intro l
  induction l with
  | nil => intro _; simp [sortedInsert]
  | cons d ds ih =>
    intro hl
    rw [List.pairwise_cons] at hl
    rw [sortedInsert]
    by_cases h1 : c < d
    · rw [if_pos h1, List.pairwise_cons]
      refine ⟨?_, List.pairwise_cons.mpr hl⟩
      intro z hz
      rcases List.mem_cons.mp hz with rfl | hz
      · exact h1
      · exact lt_trans h1 (hl.1 z hz)
    · rw [if_neg h1]
      by_cases h2 : c = d
      · rw [if_pos h2, List.pairwise_cons]; exact hl
      · rw [if_neg h2, List.pairwise_cons]
        have hdc : d < c := by
          rcases lt_trichotomy c d with h | h | h
          · exact absurd h h1
          · exact absurd h h2
          · exact h
        constructor
        · intro z hz
          rcases (mem_sortedInsert c z ds).mp hz with rfl | hz
          · exact hdc
          · exact hl.1 z hz
        · exact ih hl.2

theorem sortedDedup_pairwise [LinearOrder Code] :
    ∀ l : List Code, (sortedDedup l).Pairwise (· < ·) := by
  intro l
  induction l with
  | nil => simp [sortedDedup]
  | cons c t ih => exact sortedInsert_pairwise c _ ih

theorem allCodes_pairwise [LinearOrder Code] (inp : GenInput Code) :
    (allCodes inp).Pairwise (· < ·) := by
  rw [allCodes]
  by_cases h : inp.scope_codes = []
  · rw [if_pos h]; exact sortedDedup_pairwise _
  · rw [if_neg h]; exact sortedDedup_pairwise _

theorem genOrdersRaw_pairwise [LinearOrder Code] (inp : GenInput Code) :
    (genOrdersRaw inp).Pairwise fun a b => a.fund_code < b.fund_code := by
  refine List.Pairwise.filterMap _ ?_ (allCodes_pairwise inp)
  intro a b hab o ho o' ho'
  rw [buildOrder_code ho, buildOrder_code ho']
  exact hab

/-! ### C2 -/

set_option maxHeartbeats 2000000 in
/-- Evaluation of the generator on `inpC2`: the single order comes out
with action `hold` and raw delta 0.1 shares. -/
theorem generate_inpC2_eval :
    generate_rebalance_orders inpC2 =
      .ok ⟨[⟨0, Action.hold, 1, 1, 0, 101/10, 10, 1/10, 1/10, 0, 0, 0, 0⟩],
        0, 1/10000000, 101/1000000000⟩ := by
  norm_num [generate_rebalance_orders, genOrdersSorted, genOrdersRaw, genTotalValue,
    allCodes, sortedDedup, sortedInsert, priced, buildOrder, dictGet, tradeDecision,
    lotAdjust, forceReallocate, appliedLot, sortByKeyDesc, insertByKeyDesc,
    roundTo, roundHalfEven, inpC2, Option.some_ne_none, List.filterMap_cons,
    List.filterMap_nil, abs_of_pos, abs_of_nonpos, abs_of_nonneg, Int.fract]

/-- Claim C2, counterexample. With capital adjustment `1e-9 ≠ 0` the
single asset of `inpC2` has `|rawDeltaShares| = 0.1 ≥ 0.01`, yet the
generated order's action is `hold`: the code forces reallocation only
when `|capitalAdjustment| > 1e-8`, not whenever it is nonzero. -/
theorem c2_counterexample :
    generate_rebalance_orders inpC2 =
        .ok ⟨[⟨0, Action.hold, 1, 1, 0, 101/10, 10, 1/10, 1/10, 0, 0, 0, 0⟩],
          0, 1/10000000, 101/1000000000⟩
      ∧ inpC2.capital_adjustment ≠ 0
      ∧ (1:ℚ)/100 ≤ |(1:ℚ)/10| :=
  ⟨generate_inpC2_eval, by norm_num [inpC2], by norm_num [abs_of_pos]⟩

/-- Claim C2, amended. In `generateRebalanceOrders`, when
`|capitalAdjustment| > 1e-8` (the code's force-reallocation tolerance,
not `capitalAdjustment ≠ 0`) an asset is assigned a buy/sell action
whenever `|rawDeltaShares| ≥ 0.01`; when `|capitalAdjustment| ≤ 1e-8`
(in particular when it is 0) an asset is assigned a buy/sell action iff
both `|deviation| ≥ minDeviation` and `|rawDeltaShares| ≥ 0.01`; in all
other cases the action is hold. -/
theorem c2_trade_decision_amended (inp : GenInput Code) (raw dev : ℚ) :
    ((1:ℚ)/100000000 < |inp.capital_adjustment| → (1:ℚ)/100 ≤ |raw| →
        tradeDecision (forceReallocate inp) raw dev inp.min_deviation
          = (if 0 < raw then Action.buy else Action.sell))
    ∧ (|inp.capital_adjustment| ≤ (1:ℚ)/100000000 →
        (tradeDecision (forceReallocate inp) raw dev inp.min_deviation ≠ Action.hold
          ↔ inp.min_deviation ≤ |dev| ∧ (1:ℚ)/100 ≤ |raw|)) := by
  constructor
  · intro hca hraw
    have hf : forceReallocate inp = true := by
      simp only [forceReallocate, decide_eq_true_eq]
      exact hca
    rw [tradeDecision, if_pos ⟨hf, hraw⟩]
  · intro hca
    have hf : forceReallocate inp = false := by
      simp only [forceReallocate, decide_eq_false_iff_not, not_lt]
      exact hca
    rw [tradeDecision]
    rw [if_neg (by rw [hf]; rintro ⟨h, -⟩; cases h)]
    by_cases h2 : inp.min_deviation ≤ |dev| ∧ (1:ℚ)/100 ≤ |raw|
    · rw [if_pos h2]
      constructor
      · intro _; exact h2
      · intro _
        by_cases hr : 0 < raw
        · rw [if_pos hr]; intro h; cases h
        · rw [if_neg hr]; intro h; cases h
    · rw [if_neg h2]
      constructor
      · intro h; exact absurd rfl h
      · intro h; exact absurd h h2

/-- Witness for C2 at concrete inputs: with capital adjustment 1
(`> 1e-8`) a positive raw delta of 1 share yields a buy; with the
`1e-9` adjustment of `inpC2` a raw delta of 0.1 and zero deviation
yield hold. -/
theorem c2_witness :
    tradeDecision
        (forceReallocate
          (⟨true, [], [], fun _ => 0, fun _ => none, 1/200, 1, 1, 0⟩ : GenInput ℕ))
        1 0 (1/200) = Action.buy
      ∧ tradeDecision (forceReallocate inpC2) (1/10) 0 inpC2.min_deviation
          = Action.hold := by
  constructor
  · have h := (c2_trade_decision_amended
      (⟨true, [], [], fun _ => 0, fun _ => none, 1/200, 1, 1, 0⟩ : GenInput ℕ) 1 0).1
      (by norm_num [abs_of_pos]) (by norm_num [abs_of_pos])
    rw [h, if_pos (by norm_num)]
  · have h := (c2_trade_decision_amended inpC2 (1/10) 0).2
      (by rw [inpC2]; norm_num [abs_of_pos])
    by_contra hne
    have h2 := h.mp hne
    rw [inpC2] at h2
    norm_num at h2

/-! ### C4 -/

set_option maxHeartbeats 2000000 in
/-- Evaluation of the generator on `inpC4`: a buy of 2.5 shares of
asset 0 and a sell of 2.5 shares of asset 1, in that (stable) order. -/
theorem generate_inpC4_eval :
    generate_rebalance_orders inpC4 =
      .ok ⟨[⟨0, Action.buy, 1/2, 19/40, -1/40, 50, 95/2, 5/2, 5/2, 5/2, 1, 5/2, 0⟩,
          ⟨1, Action.sell, 1/2, 21/40, 1/40, 50, 105/2, -5/2, -5/2, -5/2, 1, 5/2, 0⟩],
        2, 100, 100⟩ := by
  have hcodes : allCodes inpC4 = [0, 1] := by
    norm_num [allCodes, inpC4, sortedDedup, sortedInsert]
  have htv : genTotalValue inpC4 = 100 := by
    rw [genTotalValue, hcodes]
    norm_num [priced, inpC4]
  have hb0 : buildOrder inpC4 100 100 0 =
      some ⟨0, Action.buy, 1/2, 19/40, -1/40, 50, 95/2, 5/2, 5/2, 5/2, 1, 5/2, 0⟩ := by
    norm_num +decide [buildOrder, priced, inpC4, dictGet, tradeDecision, lotAdjust,
      forceReallocate, appliedLot, roundTo, roundHalfEven,
      abs_of_pos, abs_of_nonpos, abs_of_nonneg, Int.fract, -Int.self_sub_floor]
  have hb1 : buildOrder inpC4 100 100 1 =
      some ⟨1, Action.sell, 1/2, 21/40, 1/40, 50, 105/2, -5/2, -5/2, -5/2, 1, 5/2, 0⟩ := by
    norm_num +decide [buildOrder, priced, inpC4, dictGet, tradeDecision, lotAdjust,
      forceReallocate, appliedLot, roundTo, roundHalfEven,
      abs_of_pos, abs_of_nonpos, abs_of_nonneg, Int.fract, -Int.self_sub_floor]
  have hraw : genOrdersRaw inpC4 =
      [⟨0, Action.buy, 1/2, 19/40, -1/40, 50, 95/2, 5/2, 5/2, 5/2, 1, 5/2, 0⟩,
        ⟨1, Action.sell, 1/2, 21/40, 1/40, 50, 105/2, -5/2, -5/2, -5/2, 1, 5/2, 0⟩] := by
    rw [genOrdersRaw, hcodes]
    have hct : genTotalValue inpC4 + inpC4.capital_adjustment = 100 := by
      rw [htv]; norm_num [inpC4]
    rw [hct, htv]
    simp only [List.filterMap_cons, List.filterMap_nil, hb0, hb1]
  rw [generate_rebalance_orders]
  rw [if_neg (by norm_num [inpC4]), if_neg (by rw [hcodes]; simp),
    if_neg (by rw [hcodes]; simp [priced, inpC4]),
    if_neg (by rw [htv]; norm_num),
    if_neg (by rw [htv]; norm_num [inpC4])]
  rw [genOrdersSorted, hraw]
  norm_num +decide [sortByKeyDesc, insertByKeyDesc,
    abs_of_pos, abs_of_nonpos, abs_of_nonneg]
  refine ⟨htv, ?_⟩
  rw [htv]
  norm_num [inpC4]

set_option maxHeartbeats 2000000 in
/-- Claim C4, counterexample. With lot size 1 (no discretization), the
first order of the `inpC4` run is a buy of `deltaShares = 2.5`, which
is not an integer multiple of the lot size 1, and the action is not
hold: the "exact signed integer multiple of lotSize" part of the claim
fails when `lotSize = 1`. -/
theorem c4_counterexample :
    generate_rebalance_orders inpC4 =
        .ok ⟨[⟨0, Action.buy, 1/2, 19/40, -1/40, 50, 95/2, 5/2, 5/2, 5/2, 1, 5/2, 0⟩,
            ⟨1, Action.sell, 1/2, 21/40, 1/40, 50, 105/2, -5/2, -5/2, -5/2, 1, 5/2, 0⟩],
          2, 100, 100⟩
      ∧ appliedLot inpC4 = 1
      ∧ ¬ ∃ k : ℤ, ((5:ℚ)/2) = ((k * appliedLot inpC4 : ℤ) : ℚ) := by
  refine ⟨generate_inpC4_eval, by norm_num [appliedLot, inpC4], ?_⟩
  rintro ⟨k, hk⟩
  have h1 : appliedLot inpC4 = 1 := by norm_num [appliedLot, inpC4]
  rw [h1, mul_one] at hk
  have h2 : ((2 * k : ℤ) : ℚ) = 5 := by push_cast; linarith
  have h3 : (2 * k : ℤ) = 5 := by exact_mod_cast h2
  omega

/-- Claim C4, amended. For every order produced by
`generateRebalanceOrders`: when the applied lot size is `> 1`, a
non-hold order's `deltaShares` is an exact signed integer multiple of
the lot size, and any raw delta under one whole lot forces the action
to hold; when the applied lot size is `≤ 1` there is no discretization
and `deltaShares` equals `rawDeltaShares` (both rounded to 4
decimals). -/
theorem c4_lot_amended [LinearOrder Code] (inp : GenInput Code) (res : GenResult Code)
    (h : generate_rebalance_orders inp = .ok res) :
    (∀ o ∈ res.orders, 1 < appliedLot inp → o.action ≠ Action.hold →
        ∃ k : ℤ, o.delta_shares = ((k * appliedLot inp : ℤ) : ℚ))
    ∧ (∀ o ∈ res.orders, appliedLot inp ≤ 1 → o.delta_shares = o.raw_delta_shares)
    ∧ (∀ (a : Action) (raw : ℚ), 1 < appliedLot inp → |raw| < ((appliedLot inp : ℤ) : ℚ) →
        (lotAdjust (appliedLot inp) a raw).1 = Action.hold) := by
  have horders : res.orders = genOrdersSorted inp := generate_ok_orders h
  have hmem : ∀ o ∈ res.orders, ∃ raw a0,
      o.action = (lotAdjust (appliedLot inp) a0 raw).1
        ∧ o.delta_shares = roundTo 4 (lotAdjust (appliedLot inp) a0 raw).2
        ∧ o.raw_delta_shares = roundTo 4 raw := by
    intro o ho
    rw [horders, genOrdersSorted, mem_sortByKeyDesc, genOrdersRaw,
      List.mem_filterMap] at ho
    obtain ⟨c, -, hc⟩ := ho
    exact buildOrder_fields hc
  refine ⟨?_, ?_, ?_⟩
  · intro o ho hlot hact
    obtain ⟨raw, a0, h1, h2, h3⟩ := hmem o ho
    rw [h1] at hact
    obtain ⟨k, hk⟩ := lotAdjust_multiple hlot hact
    exact ⟨k, by rw [h2, hk, roundTo_intCast]⟩
  · intro o ho hlot
    obtain ⟨raw, a0, h1, h2, h3⟩ := hmem o ho
    rw [h2, h3, lotAdjust_of_le a0 raw hlot]
  · intro a raw hlot hraw
    exact lotAdjust_under_one_lot a hlot hraw

set_option maxHeartbeats 2000000 in
set_option maxRecDepth 8000 in
/-- Witness for C4 at two concrete runs: in the lot-size-1 run of
`inpC2` every order's `deltaShares` equals its `rawDeltaShares`, and
in the lot-size-100 run of `inpLot100` a buy candidate with raw delta
2.5 (under one lot of 100) reverts to hold. -/
theorem c4_witness :
    (∀ o ∈ ([⟨0, Action.hold, 1, 1, 0, 101/10, 10, 1/10, 1/10, 0, 0, 0, 0⟩] :
        List (Order ℕ)), appliedLot inpC2 ≤ 1 →
          o.delta_shares = o.raw_delta_shares)
      ∧ (lotAdjust (appliedLot inpLot100) Action.buy (5/2)).1 = Action.hold := by
  constructor
  · have h := c4_lot_amended inpC2
      ⟨[⟨0, Action.hold, 1, 1, 0, 101/10, 10, 1/10, 1/10, 0, 0, 0, 0⟩],
        0, 1/10000000, 101/1000000000⟩ generate_inpC2_eval
    exact h.2.1
  · have hcodes : allCodes inpLot100 = [0, 1] := by
      norm_num [allCodes, inpLot100, sortedDedup, sortedInsert]
    have htv : genTotalValue inpLot100 = 100 := by
      rw [genTotalValue, hcodes]
      norm_num [priced, inpLot100]
    have hb0 : buildOrder inpLot100 100 100 0 =
        some ⟨0, Action.hold, 1/2, 19/40, -1/40, 50, 95/2, 0, 5/2, 0, 1, 0, 0⟩ := by
      norm_num +decide [buildOrder, priced, inpLot100, dictGet, tradeDecision, lotAdjust,
        forceReallocate, appliedLot, roundTo, roundHalfEven,
        abs_of_pos, abs_of_nonpos, abs_of_nonneg, Int.fract, -Int.self_sub_floor]
    have hb1 : buildOrder inpLot100 100 100 1 =
        some ⟨1, Action.hold, 1/2, 21/40, 1/40, 50, 105/2, 0, -5/2, 0, 1, 0, 0⟩ := by
      norm_num +decide [buildOrder, priced, inpLot100, dictGet, tradeDecision, lotAdjust,
        forceReallocate, appliedLot, roundTo, roundHalfEven,
        abs_of_pos, abs_of_nonpos, abs_of_nonneg, Int.fract, -Int.self_sub_floor]
    have hraw : genOrdersRaw inpLot100 =
        [⟨0, Action.hold, 1/2, 19/40, -1/40, 50, 95/2, 0, 5/2, 0, 1, 0, 0⟩,
          ⟨1, Action.hold, 1/2, 21/40, 1/40, 50, 105/2, 0, -5/2, 0, 1, 0, 0⟩] := by
      rw [genOrdersRaw, hcodes]
      have hct : genTotalValue inpLot100 + inpLot100.capital_adjustment = 100 := by
        rw [htv]; norm_num [inpLot100]
      rw [hct, htv]
      simp only [List.filterMap_cons, List.filterMap_nil, hb0, hb1]
    have hok : generate_rebalance_orders inpLot100 =
        .ok ⟨[⟨0, Action.hold, 1/2, 19/40, -1/40, 50, 95/2, 0, 5/2, 0, 1, 0, 0⟩,
            ⟨1, Action.hold, 1/2, 21/40, 1/40, 50, 105/2, 0, -5/2, 0, 1, 0, 0⟩],
          0, 100, 100⟩ := by
      rw [generate_rebalance_orders]
      rw [if_neg (by norm_num [inpLot100]), if_neg (by rw [hcodes]; simp),
        if_neg (by rw [hcodes]; simp [priced, inpLot100]),
        if_neg (by rw [htv]; norm_num),
        if_neg (by rw [htv]; norm_num [inpLot100])]
      rw [genOrdersSorted, hraw]
      norm_num +decide [sortByKeyDesc, insertByKeyDesc,
        abs_of_pos, abs_of_nonpos, abs_of_nonneg]
      refine ⟨htv, ?_⟩
      rw [htv]
      norm_num [inpLot100]
    have h := c4_lot_amended inpLot100 _ hok
    exact h.2.2 Action.buy (5/2) (by norm_num [appliedLot, inpLot100])
      (by norm_num [appliedLot, inpLot100, abs_of_pos])

/-! ### C5 -/

/-- Claim C5. The order list returned by `generateRebalanceOrders` is
sorted by `|deltaShares|` descending with ties broken by ascending
asset code: the loop iterates codes in ascending sorted order and the
final stable sort (`reverse=True`) therefore leaves equal
`|deltaShares|` keys in ascending code order. -/
theorem c5_orders_sorted [LinearOrder Code] (inp : GenInput Code) (res : GenResult Code)
    (h : generate_rebalance_orders inp = .ok res) :
    res.orders.Pairwise fun a b =>
      |b.delta_shares| < |a.delta_shares|
        ∨ (|a.delta_shares| = |b.delta_shares| ∧ a.fund_code < b.fund_code) := by
  rw [generate_ok_orders h, genOrdersSorted]
  exact sortByKeyDesc_pairwise _ _ _ (genOrdersRaw_pairwise inp)

/-- Witness for C5 at the two-order run of `inpC4`: the returned list
is the buy of 2.5 shares of asset 0 before the sell of 2.5 shares of
asset 1 (equal keys, ascending code). -/
theorem c5_witness :
    ([⟨0, Action.buy, 1/2, 19/40, -1/40, 50, 95/2, 5/2, 5/2, 5/2, 1, 5/2, 0⟩,
        ⟨1, Action.sell, 1/2, 21/40, 1/40, 50, 105/2, -5/2, -5/2, -5/2, 1, 5/2, 0⟩] :
      List (Order ℕ)).Pairwise (fun a b =>
        |b.delta_shares| < |a.delta_shares|
          ∨ (|a.delta_shares| = |b.delta_shares| ∧ a.fund_code < b.fund_code)) := by
  have h := c5_orders_sorted inpC4
    ⟨[⟨0, Action.buy, 1/2, 19/40, -1/40, 50, 95/2, 5/2, 5/2, 5/2, 1, 5/2, 0⟩,
        ⟨1, Action.sell, 1/2, 21/40, 1/40, 50, 105/2, -5/2, -5/2, -5/2, 1, 5/2, 0⟩],
      2, 100, 100⟩ generate_inpC4_eval
  exact h

/-! ### C3 -/

theorem execSell_cash [DecidableEq Code] {fee : ℚ} (hf0 : 0 ≤ fee) (hf1 : fee ≤ 1)
    {st : SimState Code} {o : BtOrder Code} (hpx : 0 < o.px) (hc : 0 ≤ st.cash) :
    0 ≤ (execSell fee st o).cash := by
  rw [execSell]
  split_ifs with h
  · exact hc
  · push_neg at h
    simp only
    have hs : 0 ≤ min |o.exec_shares| (st.shares_of o.code) := le_of_lt h
    have h1 : 0 ≤ min |o.exec_shares| (st.shares_of o.code) * o.px * (1 - fee) :=
      mul_nonneg (mul_nonneg hs (le_of_lt hpx)) (by linarith)
    nlinarith [h1]

theorem execBuy_cash [DecidableEq Code] {fee : ℚ} (hf0 : 0 ≤ fee)
    {lot_of : Code → ℤ} {st : SimState Code} {o : BtOrder Code} (hpx : 0 < o.px)
    (hc : 0 ≤ st.cash) : 0 ≤ (execBuy fee lot_of st o).cash := by
  have hfe : (0:ℚ) < 1 + fee := by linarith
  rw [execBuy]
  simp only [ge_iff_le, hf0, if_true]
  set A := min (|o.exec_shares| * o.px) (st.cash / (1 + fee)) with hA
  have hAcash : A ≤ st.cash / (1 + fee) := min_le_right _ _
  have hAmul : A * (1 + fee) ≤ st.cash := by
    rw [← div_mul_cancel₀ st.cash (ne_of_gt hfe)]
    exact mul_le_mul_of_nonneg_right hAcash (le_of_lt hfe)
  by_cases hbA : A ≤ 0
  · rw [if_pos hbA]; exact hc
  · rw [if_neg hbA]
    by_cases hlot : 1 < lot_of o.code
    · simp only [if_pos hlot]
      set L := ((lot_of o.code : ℤ) : ℚ) with hL
      have hLpos : (0:ℚ) < L := by
        rw [hL]; exact_mod_cast lt_trans one_pos hlot
      have hamt : ((⌊(A / o.px) / L⌋ * lot_of o.code : ℤ) : ℚ) * o.px ≤ A := by
        have hfloor : ((⌊(A / o.px) / L⌋ * lot_of o.code : ℤ) : ℚ) ≤ A / o.px := by
          push_cast
          have h4 : (⌊(A / o.px) / L⌋ : ℚ) ≤ (A / o.px) / L := Int.floor_le _
          calc (⌊(A / o.px) / L⌋ : ℚ) * L ≤ ((A / o.px) / L) * L :=
                mul_le_mul_of_nonneg_right h4 (le_of_lt hLpos)
            _ = A / o.px := div_mul_cancel₀ _ (ne_of_gt hLpos)
        calc ((⌊(A / o.px) / L⌋ * lot_of o.code : ℤ) : ℚ) * o.px
            ≤ (A / o.px) * o.px := mul_le_mul_of_nonneg_right hfloor (le_of_lt hpx)
          _ = A := div_mul_cancel₀ _ (ne_of_gt hpx)
      split_ifs with hs1 hs2
      · exact hc
      · exact hc
      · simp only
        nlinarith [hamt, hAmul]
    · simp only [if_neg hlot]
      have hamt : A / o.px * o.px = A := div_mul_cancel₀ _ (ne_of_gt hpx)
      split_ifs with hs1 hs2
      · exact hc
      · exact hc
      · simp only
        nlinarith [hAmul]

theorem planOrder_px_pos [DecidableEq Code] {inp : BtInput Code} {te : ℚ}
    {pv px : Code → ℚ} {c : Code} {o : BtOrder Code}
    (h : planOrder inp te pv px c = some o) : 0 < o.px := by
  simp only [planOrder] at h
  split_ifs at h <;>
    first
      | exact Option.noConfusion h
      | (obtain rfl := Option.some.inj h
         exact not_le.mp (by assumption))

theorem foldl_execSell_cash [DecidableEq Code] {fee : ℚ} (hf0 : 0 ≤ fee) (hf1 : fee ≤ 1) :
    ∀ (l : List (BtOrder Code)) (st : SimState Code),
      (∀ o ∈ l, 0 < o.px) → 0 ≤ st.cash → 0 ≤ (l.foldl (execSell fee) st).cash := by
  intro l
  induction l with
  | nil => intro st _ hc; exact hc
  | cons o t ih =>
    intro st hpx hc
    rw [List.foldl_cons]
    exact ih _ (fun x hx => hpx x (List.mem_cons_of_mem o hx))
      (execSell_cash hf0 hf1 (hpx o (List.mem_cons_self o t)) hc)

theorem foldl_execBuy_cash [DecidableEq Code] {fee : ℚ} (hf0 : 0 ≤ fee)
    {lot_of : Code → ℤ} :
    ∀ (l : List (BtOrder Code)) (st : SimState Code),
      (∀ o ∈ l, 0 < o.px) → 0 ≤ st.cash →
        0 ≤ (l.foldl (execBuy fee lot_of) st).cash := by
  intro l
  induction l with
  | nil => intro st _ hc; exact hc
  | cons o t ih =>
    intro st hpx hc
    rw [List.foldl_cons]
    exact ih _ (fun x hx => hpx x (List.mem_cons_of_mem o hx))
      (execBuy_cash hf0 (hpx o (List.mem_cons_self o t)) hc)

theorem dayStep_cash [DecidableEq Code] {inp : BtInput Code} (hf0 : 0 ≤ inp.fee_rate)
    (hf1 : inp.fee_rate ≤ 1) (i : ℕ) (px : Code → ℚ) {st : SimState Code}
    (hc : 0 ≤ st.cash) : 0 ≤ (dayStep inp i px st).cash := by
  simp only [dayStep]
  split_ifs with h1 h2 h3
  · exact hc
  · exact hc
  · exact hc
  · have hplanned : ∀ o ∈ inp.usable_codes.filterMap
        (planOrder inp
          (st.cash + (inp.usable_codes.map fun c =>
            if px c > 0 then st.shares_of c * px c else 0).sum)
          (fun c => if px c > 0 then st.shares_of c * px c else 0) px), 0 < o.px := by
      intro o ho
      obtain ⟨c, -, hco⟩ := List.mem_filterMap.mp ho
      exact planOrder_px_pos hco
    refine foldl_execBuy_cash hf0 _ _ ?_ ?_
    · intro o ho
      exact hplanned o (List.mem_of_mem_filter ho)
    · refine foldl_execSell_cash hf0 hf1 _ _ ?_ hc
      intro o ho
      exact hplanned o (List.mem_of_mem_filter ho)

theorem mem_scanl_of_preserved {α β : Type} (f : α → β → α) (P : α → Prop)
    (hf : ∀ a b, P a → P (f a b)) :
    ∀ (l : List β) (init : α), P init → ∀ s ∈ List.scanl f init l, P s := by
  intro l
  induction l with
  | nil =>
    intro init h s hs
    rw [List.scanl_nil] at hs
    rcases List.mem_singleton.mp hs with rfl
    exact h
  | cons a t ih =>
    intro init h s hs
    rw [List.scanl_cons] at hs
    rcases List.mem_cons.mp hs with rfl | hs2
    · exact h
    · exact ih (f init a) (hf init a h) s hs2

/-- Claim C3, counterexample. `run_backtest` accepts a fee rate of 2.0
(no validation of `fee_rate` exists), and on the `inpC3` run the day-1
sell leg pays a fee of twice its proceeds: the cash track is
`[0, 0, −25]` and ends negative, refuting "cash ≥ 0 on every simulated
day" as stated over all accepted inputs. -/
theorem c3_counterexample :
    run_backtest inpC3 = .ok (simStates inpC3)
      ∧ (simStates inpC3).map SimState.cash = [0, 0, -25]
      ∧ ¬ (0 ≤ (-25 : ℚ)) := by
  refine ⟨?_, ?_, by norm_num⟩
  · rw [run_backtest, if_neg (by norm_num [inpC3]), if_neg (by simp [inpC3])]
  · have henum : inpC3.navRows.enum =
        [(0, fun _ => (1:ℚ)), (1, fun c => if c = 0 then (2:ℚ) else 1)] := rfl
    have hd0 : dayStep inpC3 0 (fun _ => (1:ℚ)) (initSim inpC3) = initSim inpC3 := by
      norm_num +decide [dayStep, initSim, inpC3, planOrder, List.filterMap_cons,
        abs_of_pos, abs_of_nonpos, abs_of_nonneg, List.headI]
    have hd1 : (dayStep inpC3 1 (fun c => if c = 0 then (2:ℚ) else 1)
        (initSim inpC3)).cash = -25 := by
      norm_num +decide [dayStep, initSim, inpC3, planOrder, execSell, execBuy, updF,
        List.filterMap_cons, abs_of_pos, abs_of_nonpos, abs_of_nonneg, List.headI]
    rw [simStates, henum, List.scanl_cons]
    simp only
    rw [hd0, List.scanl_cons]
    simp only
    rw [List.scanl_nil]
    simp only [List.map_append, List.map_cons, List.map_nil, hd1]
    norm_num [initSim]

/-- Claim C3, amended. In every backtest run whose applied fee rate lies
in `[0, 1]` (the documented range is `[0, 0.02]`; `run_backtest` itself
never validates it), cash is ≥ 0 on every simulated day: sells execute
before buys, each sell is capped at the shares held, and each buy is
capped by the cash available after reserving its fee. -/
theorem c3_cash_nonneg_amended [DecidableEq Code] (inp : BtInput Code)
    (states : List (SimState Code)) (h : run_backtest inp = .ok states)
    (hf0 : 0 ≤ inp.fee_rate) (hf1 : inp.fee_rate ≤ 1) :
    ∀ s ∈ states, 0 ≤ s.cash := by
  rw [run_backtest] at h
  by_cases h1 : inp.initial_capital ≤ 0
  · rw [if_pos h1] at h; exact absurd h (by simp)
  rw [if_neg h1] at h
  by_cases h2 : inp.navRows.isEmpty = true
  · rw [if_pos h2] at h; exact absurd h (by simp)
  rw [if_neg h2] at h
  obtain rfl := Except.ok.inj h
  rw [simStates]
  have hpres : ∀ (st : SimState Code) (ip : ℕ × (Code → ℚ)), 0 ≤ st.cash →
      0 ≤ (dayStep inp ip.1 ip.2 st).cash := fun st ip hc => dayStep_cash hf0 hf1 ip.1 ip.2 hc
  have h0 : (0:ℚ) ≤ (initSim inp).cash := le_refl 0
  exact mem_scanl_of_preserved _ (fun st => 0 ≤ st.cash) hpres inp.navRows.enum
    (initSim inp) h0

/-- Witness for C3: the `inpC3` run with the fee rate corrected to the
maximum documented value 0.02 keeps cash ≥ 0 on every day. -/
theorem c3_witness :
    (simStates inpC3ok).all (fun s => decide (0 ≤ s.cash)) = true := by
  rw [List.all_eq_true]
  intro s hs
  have hok : run_backtest inpC3ok = .ok (simStates inpC3ok) := by
    rw [run_backtest, if_neg (by norm_num [inpC3ok]), if_neg (by simp [inpC3ok])]
  exact decide_eq_true (c3_cash_nonneg_amended inpC3ok (simStates inpC3ok) hok
    (by norm_num [inpC3ok]) (by norm_num [inpC3ok]) s hs)

/-! ### C6, C7, C9, C10 -/

theorem run_txn_rollback {α : Type} (st : PState Code) (fault : Bool)
    (body : Except SErr (PState Code × α)) (e : SErr)
    (h : (run_txn st fault body).2 = .error e) : (run_txn st fault body).1 = st := by
  cases body with
  | error e2 => rfl
  | ok sa =>
    rw [run_txn] at h ⊢
    by_cases hf : fault
    · rw [if_pos hf]
    · rw [if_neg hf] at h
      cases h

/-- Evaluation of the generator on `inpHold`: a single on-target asset
produces one hold order and no actionable order. -/
theorem generate_inpHold :
    generate_rebalance_orders inpHold =
      .ok ⟨[⟨0, Action.hold, 1, 1, 0, 10, 10, 0, 0, 0, 1, 0, 0⟩], 0, 10, 10⟩ := by
  norm_num +decide [generate_rebalance_orders, genOrdersSorted, genOrdersRaw, genTotalValue,
    allCodes, sortedDedup, sortedInsert, priced, buildOrder, dictGet, tradeDecision,
    lotAdjust, forceReallocate, appliedLot, sortByKeyDesc, insertByKeyDesc,
    roundTo, roundHalfEven, inpHold, Option.some_ne_none, List.filterMap_cons,
    List.filterMap_nil, abs_of_pos, abs_of_nonpos, abs_of_nonneg, Int.fract,
    -Int.self_sub_floor]

/-- Claim C6, counterexample. `stC6` contains an order (the hold order,
stored as `skipped`) whose status is a terminal status other than
`suggested`, yet `refresh_rebalance_batch` succeeds: the code only
rejects a refresh when a *buy/sell* order has left `suggested`; hold
orders (always `skipped`) never block it. -/
theorem c6_counterexample :
    (stC6.orders.any fun o => o.status ≠ OStatus.suggested) = true
      ∧ (refresh_rebalance_batch stC6 false inpHold).2 = .ok 0 := by
  constructor
  · norm_num +decide [stC6]
  · rw [refresh_rebalance_batch, refresh_batch_body]
    norm_num +decide [stC6, generate_inpHold, run_txn]

/-- Claim C6, amended. `refresh_rebalance_batch` fails with a
state-conflict error whenever the batch is already completed or any
**buy/sell** order of the batch carries a status other than
`suggested` (hold orders, stored as `skipped`, never block a refresh);
otherwise it recomputes the orders from scratch and the batch ends
pending, or completed when zero actionable orders result.  In every
failure case the state is unchanged. -/
theorem c6_refresh_amended [LinearOrder Code] (st : PState Code) (genv : GenInput Code) :
    (st.batch = some BStatus.completed →
        (refresh_rebalance_batch st false genv).2 = .error SErr.batchCompleted
          ∧ (refresh_rebalance_batch st false genv).1 = st)
    ∧ (st.batch = some BStatus.pending →
        (∃ o ∈ st.orders, (o.action = Action.buy ∨ o.action = Action.sell)
            ∧ o.status ≠ OStatus.suggested) →
        (refresh_rebalance_batch st false genv).2 = .error SErr.batchEdited
          ∧ (refresh_rebalance_batch st false genv).1 = st)
    ∧ (∀ res : GenResult Code, st.batch = some BStatus.pending →
        (¬ ∃ o ∈ st.orders, (o.action = Action.buy ∨ o.action = Action.sell)
            ∧ o.status ≠ OStatus.suggested) →
        generate_rebalance_orders genv = .ok res →
        (refresh_rebalance_batch st false genv).1.batch
            = some (if res.actionable_count = 0 then BStatus.completed
                else BStatus.pending)
          ∧ (refresh_rebalance_batch st false genv).2 = .ok res.actionable_count) := by
  refine ⟨?_, ?_, ?_⟩
  · intro hb
    rw [refresh_rebalance_batch, refresh_batch_body, hb]
    exact ⟨rfl, rfl⟩
  · intro hb hex
    have hany : (st.orders.any fun o =>
        (o.action = Action.buy ∨ o.action = Action.sell)
          ∧ o.status ≠ OStatus.suggested) = true := by
      rw [List.any_eq_true]
      obtain ⟨o, ho, hvio⟩ := hex
      exact ⟨o, ho, by simpa using hvio⟩
    rw [refresh_rebalance_batch, refresh_batch_body, hb, if_pos (by simpa using hany)]
    exact ⟨rfl, rfl⟩
  · intro res hb hnex hgen
    have hany : ¬ (st.orders.any fun o =>
        (o.action = Action.buy ∨ o.action = Action.sell)
          ∧ o.status ≠ OStatus.suggested) = true := by
      rw [List.any_eq_true]
      intro ⟨o, ho, hvio⟩
      exact hnex ⟨o, ho, by simpa using hvio⟩
    rw [refresh_rebalance_batch, refresh_batch_body, hb,
      if_neg (by simpa using hany), hgen]
    exact ⟨rfl, rfl⟩

/-- Witness for C6: the three clauses of the amended statement applied
at concrete states — a completed batch is rejected, a batch with an
executed buy order is rejected, and the untouched `stC9` batch
refreshes to completed (zero actionable orders in the `inpHold`
recomputation). -/
theorem c6_witness :
    (refresh_rebalance_batch (⟨some BStatus.completed, [], []⟩ : PState ℕ)
        false inpHold).2 = .error SErr.batchCompleted
      ∧ (refresh_rebalance_batch
          (⟨some BStatus.pending,
            [⟨0, 0, Action.buy, OStatus.executed, 0, none, none, none⟩], []⟩ : PState ℕ)
          false inpHold).2 = .error SErr.batchEdited
      ∧ (refresh_rebalance_batch stC9 false inpHold).1.batch
          = some BStatus.completed := by
  refine ⟨?_, ?_, ?_⟩
  · exact ((c6_refresh_amended (⟨some BStatus.completed, [], []⟩ : PState ℕ)
      inpHold).1 rfl).1
  · exact ((c6_refresh_amended
      (⟨some BStatus.pending,
        [⟨0, 0, Action.buy, OStatus.executed, 0, none, none, none⟩], []⟩ : PState ℕ)
      inpHold).2.1 rfl
      ⟨_, List.mem_singleton_self _, Or.inl rfl, by simp⟩).1
  · have h := (c6_refresh_amended stC9 inpHold).2.2
      ⟨[⟨0, Action.hold, 1, 1, 0, 10, 10, 0, 0, 0, 1, 0, 0⟩], 0, 10, 10⟩ rfl
      (by rintro ⟨o, ho, hbs, -⟩
          rcases List.mem_singleton.mp ho with rfl
          rcases hbs with h | h <;> cases h)
      generate_inpHold
    rw [h.1]
    norm_num

/-- Claim C7. Every persistence-touching operation is all-or-nothing:
whatever the state, arguments and injected persistence fault, if
`generate_rebalance_orders(persist=True)`, `refresh_rebalance_batch`,
`complete_rebalance_batch`, `update_rebalance_order_status` or
`execute_rebalance_order` returns an error, the persistent state (batch
row, order rows and the account's positions) is exactly the input
state.  The position writes of `execute_rebalance_order` go through
`upsert_position`/`remove_position`, modelled from the spec as joining
the caller's transaction. -/
theorem c7_atomicity [LinearOrder Code] (st : PState Code) (fault : Bool)
    (genv : GenInput Code) (oid : ℕ) (status : OStatus) (ex px : ℚ) (e : SErr) :
    ((generate_and_persist st fault genv).2 = .error e →
        (generate_and_persist st fault genv).1 = st)
    ∧ ((refresh_rebalance_batch st fault genv).2 = .error e →
        (refresh_rebalance_batch st fault genv).1 = st)
    ∧ ((complete_rebalance_batch st fault).2 = .error e →
        (complete_rebalance_batch st fault).1 = st)
    ∧ ((update_rebalance_order_status st fault oid status).2 = .error e →
        (update_rebalance_order_status st fault oid status).1 = st)
    ∧ ((execute_rebalance_order st fault oid ex px).2 = .error e →
        (execute_rebalance_order st fault oid ex px).1 = st) :=
  ⟨run_txn_rollback st fault _ e, run_txn_rollback st fault _ e,
    run_txn_rollback st fault _ e, run_txn_rollback st fault _ e,
    run_txn_rollback st fault _ e⟩

/-- Witness for C7: completing a batch on the empty state fails with
`batchNotFound` and leaves the state unchanged; executing an order
against a pending batch with an injected commit fault also leaves the
state unchanged. -/
theorem c7_witness :
    (complete_rebalance_batch stEmpty false).1 = stEmpty
      ∧ (refresh_rebalance_batch stC9 true inpHold).1 = stC9 := by
  constructor
  · exact (c7_atomicity stEmpty false inpHold 0 OStatus.suggested 1 1
      SErr.batchNotFound).2.2.1
      (by simp [complete_rebalance_batch, complete_batch_body, stEmpty, run_txn])
  · refine (c7_atomicity stC9 true inpHold 0 OStatus.suggested 1 1
      SErr.ioFault).2.1 ?_
    rw [refresh_rebalance_batch, refresh_batch_body]
    norm_num +decide [stC9, generate_inpHold, run_txn]

/-- Claim C9, evaluation at the failing input. A hold order sits in a
pending batch with its invariant status `skipped`; the public
`update_rebalance_order_status` accepts the move to `executed` and the
stored hold order ends with status `executed` — the operation never
checks the order's action, contradicting the invariant that hold
orders are terminally `skipped`. -/
theorem c9_code_eval :
    stC9.orders = [⟨0, 0, Action.hold, OStatus.skipped, 0, none, none, none⟩]
      ∧ (update_rebalance_order_status stC9 false 0 OStatus.executed).2 = .ok ()
      ∧ (update_rebalance_order_status stC9 false 0 OStatus.executed).1.orders
          = [⟨0, 0, Action.hold, OStatus.executed, 0, none, none, none⟩] := by
  refine ⟨rfl, ?_, ?_⟩
  · rw [update_rebalance_order_status, update_status_body]
    norm_num +decide [stC9, findOrder, batchEditable, run_txn]
  · rw [update_rebalance_order_status, update_status_body]
    norm_num +decide [stC9, findOrder, batchEditable, run_txn]

/-- Claim C10. `complete_rebalance_batch` is idempotent at the
already-completed state: on a batch whose status is `completed` it
succeeds, returns status `completed`, and changes no batch or order
state — it does not raise a state-conflict error. -/
theorem c10_complete_idempotent (st : PState Code)
    (h : st.batch = some BStatus.completed) :
    complete_rebalance_batch st false = (st, .ok BStatus.completed) := by
  simp [complete_rebalance_batch, complete_batch_body, h, run_txn]

/-- Witness for C10 at a concrete completed batch with one suggested
buy order (which would block a fresh completion, but not the
idempotent early return). -/
theorem c10_witness :
    complete_rebalance_batch
        (⟨some BStatus.completed,
          [⟨0, 0, Action.buy, OStatus.suggested, 0, none, none, none⟩], []⟩ : PState ℕ)
        false
      = (⟨some BStatus.completed,
          [⟨0, 0, Action.buy, OStatus.suggested, 0, none, none, none⟩], []⟩,
        .ok BStatus.completed) :=
  c10_complete_idempotent _ rfl

/-! ### C8 -/

theorem varP_pair : varP [(0:ℝ), 1] = 1/4 := by
  norm_num [varP, rmean]

theorem stdP_pair : stdP [(0:ℝ), 1] = 1/2 := by
  rw [stdP, varP_pair, show (1/4 : ℝ) = (1/2)^2 by norm_num, Real.sqrt_sq (by norm_num)]

theorem annualVolOf_pair : (1:ℝ)/100000000 < annualVolOf [(0:ℝ), 1] := by
  rw [annualVolOf, stdP_pair]
  have h1 : (1:ℝ) ≤ Real.sqrt 252 := Real.one_le_sqrt.mpr (by norm_num)
  nlinarith [h1]

/-- Evaluation of the maximum drawdown on the equity curve
`[100, 110, 90]` (fed to the calculator as its pct-change return
series, as `run_backtest` does): the result is `(90−110)/110 = −2/11 =
−0.1818…`. -/
theorem c8_maxdd :
    (calculate_metrics ((pctChange [100, 110, 90]).enum) []).max_drawdown
      = some (-(2/11)) := by
  have hpct : pctChange [(100:ℝ), 110, 90] = [0, 1/10, -(2/11)] := by
    norm_num [pctChange, pctChangeAux]
  have henum : (pctChange [(100:ℝ), 110, 90]).enum
      = [(0, (0:ℝ)), (1, 1/10), (2, -(2/11))] := by
    rw [hpct]
    rfl
  rw [calculate_metrics, henum]
  simp only [List.map_cons, List.map_nil, List.length_cons, List.length_nil]
  rw [if_neg (by norm_num)]
  simp only
  norm_num [cumNav, runMax, listMin, List.scanl, min_def, max_def]

/-- Claim C8, counterexample. A two-point return series with positive
volatility against a two-point benchmark: the inner-joined overlap has
2 < 20 points, yet Sharpe is *not* null — only alpha, beta and the
information ratio are gated on the 20-point overlap; Sharpe depends
only on the portfolio volatility.  The claim "Sharpe … null whenever …
the benchmark overlap is fewer than 20 points" is false. -/
theorem c8_counterexample :
    (calculate_metrics [(0, 0), (1, 1)] [(0, 0), (1, 1)]).sharpe ≠ none
      ∧ (innerJoin [(0, 0), (1, 1)] [(0, 0), (1, 1)]).length < 20 := by
  constructor
  · rw [calculate_metrics]
    simp only [List.map_cons, List.map_nil, List.length_cons, List.length_nil]
    rw [if_neg (by norm_num)]
    simp only
    rw [if_pos annualVolOf_pair]
    simp
  · norm_num [innerJoin, lookupDate, List.filterMap_cons]

/-- Claim C8, amended. In the metrics calculator: Sharpe is null
whenever the annualized volatility is ≈ 0 (`≤ 1e-8`); alpha, beta and
the information ratio are null whenever the inner-joined benchmark
overlap has fewer than 20 points; beta and alpha are null whenever the
benchmark variance is ≈ 0 (`≤ 1e-12`); the information ratio is null
whenever the active-return standard deviation is ≈ 0 (`≤ 1e-12`); and
the maximum drawdown of the equity curve `[100, 110, 90]` is
`−2/11 = −0.1818…`. -/
theorem c8_metrics_amended (p b : List (ℕ × ℝ)) :
    (annualVolOf (p.map Prod.snd) ≤ 1/100000000 →
        (calculate_metrics p b).sharpe = none)
    ∧ ((innerJoin p b).length < 20 →
        (calculate_metrics p b).alpha = none
          ∧ (calculate_metrics p b).beta = none
          ∧ (calculate_metrics p b).info_ratio = none)
    ∧ (varP ((innerJoin p b).map Prod.snd) ≤ 1/1000000000000 →
        (calculate_metrics p b).beta = none ∧ (calculate_metrics p b).alpha = none)
    ∧ (stdP ((innerJoin p b).map fun q => q.1 - q.2) ≤ 1/1000000000000 →
        (calculate_metrics p b).info_ratio = none)
    ∧ (calculate_metrics ((pctChange [100, 110, 90]).enum) []).max_drawdown
        = some (-(2/11)) := by
  rw [calculate_metrics]
  by_cases hlen : (p.map Prod.snd).length < 2
  · rw [if_pos hlen]
    exact ⟨fun _ => rfl, fun _ => ⟨rfl, rfl, rfl⟩, fun _ => ⟨rfl, rfl⟩, fun _ => rfl,
      c8_maxdd⟩
  · rw [if_neg hlen]
    simp only
    refine ⟨?_, ?_, ?_, ?_, c8_maxdd⟩
    · intro hvol
      rw [if_neg (not_lt.mpr hvol)]
    · intro hjoin
      refine ⟨?_, ?_, ?_⟩ <;>
        rw [if_neg (by rintro ⟨-, h20, -⟩; exact absurd h20 (not_le.mpr hjoin))]
    · intro hvar
      constructor <;>
        rw [if_neg (by rintro ⟨-, -, hv⟩; exact absurd hv (not_lt.mpr hvar))]
    · intro hstd
      rw [if_neg (by rintro ⟨-, -, hv⟩; exact absurd hv (not_lt.mpr hstd))]

/-- Witness for C8 at a constant return series (zero variance, 2-point
benchmark overlap): Sharpe, alpha, beta and the information ratio are
all null. -/
theorem c8_witness :
    (calculate_metrics [(0, 0), (1, 0)] [(0, 0), (1, 0)]).sharpe = none
      ∧ (calculate_metrics [(0, 0), (1, 0)] [(0, 0), (1, 0)]).alpha = none
      ∧ (calculate_metrics [(0, 0), (1, 0)] [(0, 0), (1, 0)]).beta = none
      ∧ (calculate_metrics [(0, 0), (1, 0)] [(0, 0), (1, 0)]).info_ratio = none := by
  have h := c8_metrics_amended [(0, 0), (1, 0)] [(0, 0), (1, 0)]
  have hvol : annualVolOf (([((0:ℕ), (0:ℝ)), (1, 0)]).map Prod.snd) ≤ 1/100000000 := by
    have hv : varP [(0:ℝ), 0] = 0 := by norm_num [varP, rmean]
    simp only [List.map_cons, List.map_nil]
    rw [annualVolOf, stdP, hv, Real.sqrt_zero, zero_mul]
    norm_num
  have hj : (innerJoin [((0:ℕ), (0:ℝ)), (1, 0)] [(0, 0), (1, 0)]).length < 20 := by
    norm_num [innerJoin, lookupDate, List.filterMap_cons]
  exact ⟨h.1 hvol, (h.2.1 hj).1, (h.2.1 hj).2.1, (h.2.1 hj).2.2⟩

end FundVal
